import Mathlib

/-!
# A verification development for the pypg object-graph transcoder

This file gives a shallow embedding of the core of the `pypg` repository
(`src/pypg/type_utils.py`, `src/pypg/type_registry.py`, `src/pypg/locator.py`
and `src/pypg/transcode.py`) and proves properties of the embedded code.

Conventions used throughout:
* Python `dict`s keyed by hashable values are modelled as insertion-ordered
  association lists; `dget` is `d[k]`-as-lookup (`None` on miss) and `dset`
  is `d[k] = v` (replace in place, or append when the key is new).
* Machine-level object identity (`id(obj)`) is modelled by explicit numeric
  addresses in a heap, or by a monotonically increasing allocation counter
  for freshly constructed values.
* Python exceptions are modelled with `Option`/`Except`: a `none`/`.error`
  result is a raised exception of the recorded kind.
* Python `float` values are never computed with by the transcoder (they are
  carried through literally), so they are modelled by an opaque decidable
  type, here `Rat`.
-/

/-- `d[k]` lookup in an association list modelling a Python `dict`. -/
def dget {κ α : Type} [DecidableEq κ] : List (κ × α) → κ → Option α
  | [], _ => none
  | (k', v) :: t, k => if k' = k then some v else dget t k

/-- `d[k] = v` assignment in an association list modelling a Python `dict`:
replaces the value of an existing key in place, appends otherwise. -/
def dset {κ α : Type} [DecidableEq κ] : List (κ × α) → κ → α → List (κ × α)
  | [], k, v => [(k, v)]
  | (k', v') :: t, k, v =>
    if k' = k then (k, v) :: t else (k', v') :: dset t k v

theorem dget_dset_self {κ α : Type} [DecidableEq κ] (l : List (κ × α)) (k : κ) (v : α) :
    dget (dset l k v) k = some v := by
  induction l with
  | nil => simp [dget, dset]
  | cons hd t ih =>
    obtain ⟨k', v'⟩ := hd
    by_cases h : k' = k
    · simp [dget, dset, h]
    · simp [dget, dset, h, ih]

theorem dget_dset_ne {κ α : Type} [DecidableEq κ] (l : List (κ × α)) (k k' : κ) (v : α)
    (h : k ≠ k') : dget (dset l k v) k' = dget l k' := by
  induction l with
  | nil => simp [dget, dset, h]
  | cons hd t ih =>
    obtain ⟨k₀, v₀⟩ := hd
    by_cases h₀ : k₀ = k
    · subst h₀; simp [dget, dset, h]
    · simp only [dset, if_neg h₀, dget]
      by_cases h₁ : k₀ = k'
      · simp [h₁]
      · simp [h₁, ih]

theorem dget_isSome_of_key_mem {κ α : Type} [DecidableEq κ] (l : List (κ × α)) (k : κ)
    (h : k ∈ l.map Prod.fst) : (dget l k).isSome := by
  induction l with
  | nil => simp at h
  | cons hd t ih =>
    obtain ⟨k', v'⟩ := hd
    by_cases hk : k' = k
    · simp [dget, hk]
    · simp only [List.map_cons, List.mem_cons] at h
      rcases h with h | h
      · exact absurd h.symm hk
      · simpa [dget, hk] using ih h

theorem dget_eq_none_of_key_not_mem {κ α : Type} [DecidableEq κ] (l : List (κ × α)) (k : κ)
    (h : k ∉ l.map Prod.fst) : dget l k = none := by
  induction l with
  | nil => rfl
  | cons hd t ih =>
    obtain ⟨k', v'⟩ := hd
    simp only [List.map_cons, List.mem_cons, not_or] at h
    simp [dget, Ne.symm h.1, ih h.2]

theorem mem_of_dget_eq_some {κ α : Type} [DecidableEq κ] {l : List (κ × α)} {k : κ} {v : α}
    (h : dget l k = some v) : (k, v) ∈ l := by
  induction l with
  | nil => simp [dget] at h
  | cons hd t ih =>
    obtain ⟨k', v'⟩ := hd
    by_cases hk : k' = k
    · subst hk
      have h' : some v' = some v := by simpa [dget] using h
      obtain rfl : v' = v := Option.some.inj h'
      exact List.mem_cons_self _ _
    · simp only [dget, if_neg hk] at h
      exact List.mem_cons_of_mem _ (ih h)

/-! ## The Python type model

`pypg` dispatches on runtime types via `__bases__`-walks (`type_utils.py`).
A (non-parameterized) Python class is modelled as a name together with the
list of its immediate bases; the base graph of a Python class is acyclic,
which the inductive tree representation captures (shared ancestors appear
as equal subtrees, matching comparison by `issubclass`).  All keys ever
registered in the repository's type registries are plain classes. -/

inductive PyType where
  | mk (name : String) (bases : List PyType)

mutual

/-- Structural (= nominal, for acyclic base graphs) equality of class trees. -/
def PyType.beq : PyType → PyType → Bool
  | .mk n bs, .mk m cs => n == m && PyType.beqList bs cs

def PyType.beqList : List PyType → List PyType → Bool
  | [], [] => true
  | a :: as, b :: bs => PyType.beq a b && PyType.beqList as bs
  | _, _ => false

end

theorem PyType.beq_iff_eq_aux :
    ∀ n, ∀ a b : PyType, sizeOf a ≤ n → (PyType.beq a b = true ↔ a = b) := by
  intro n
  induction n with
  | zero =>
    intro a b ha
    obtain ⟨nm, bs⟩ := a
    simp only [PyType.mk.sizeOf_spec] at ha
    omega
  | succ n ih =>
    intro a b ha
    obtain ⟨nm, bs⟩ := a
    obtain ⟨nm', bs'⟩ := b
    have hbs : sizeOf bs ≤ n := by
      simp only [PyType.mk.sizeOf_spec] at ha
      omega
    have hlist : ∀ (xs ys : List PyType), sizeOf xs ≤ n →
        (PyType.beqList xs ys = true ↔ xs = ys) := by
      intro xs
      induction xs with
      | nil =>
        intro ys _
        cases ys <;> simp [PyType.beqList]
      | cons x xt ihx =>
        intro ys hxs
        cases ys with
        | nil => simp [PyType.beqList]
        | cons y yt =>
          have hsz : sizeOf (x :: xt) = 1 + sizeOf x + sizeOf xt := by simp
          have hx : sizeOf x ≤ n := by omega
          have hxt : sizeOf xt ≤ n := by omega
          simp only [PyType.beqList, Bool.and_eq_true, ih x y hx, ihx yt hxt,
            List.cons.injEq]
    simp only [PyType.beq, Bool.and_eq_true, beq_iff_eq, hlist bs bs' hbs,
      PyType.mk.injEq]

instance : DecidableEq PyType := fun a b =>
  decidable_of_iff _ (PyType.beq_iff_eq_aux (sizeOf a) a b (Nat.le_refl _))

mutual

/-- `type_utils.hierarchy`: all (transitive) bases of a type, with repetition,
ancestors-first within each base (`for bt in t.__bases__: yield from
hierarchy(bt)` then `yield from t.__bases__`, guarded by `if t.__bases__:`). -/
def hierarchy : PyType → List PyType
  | .mk _ bases =>
    if bases.isEmpty then []
    else hierarchyOfList bases ++ bases

/-- The inner loop of `hierarchy`: concatenation of the hierarchies of a list
of bases. -/
def hierarchyOfList : List PyType → List PyType
  | [] => []
  | b :: bs => hierarchy b ++ hierarchyOfList bs

end

theorem hierarchyOfList_eq_flatMap (bs : List PyType) :
    hierarchyOfList bs = bs.flatMap hierarchy := by
  induction bs with
  | nil => rfl
  | cons b bs ih => simp [hierarchyOfList, ih]

/-- Python `issubclass(t, u)` for plain classes: `u` is `t` itself or appears
among `t`'s transitive bases. -/
def issubclass (t u : PyType) : Bool :=
  t == u || (hierarchy t).contains u

/-- An argument to `find_closest_relative`: either a plain class or a
parameterized generic alias (for which `typing.get_origin` yields the
unparameterized origin class). -/
inductive PyArg where
  | cls (t : PyType)
  | generic (origin : PyType)
deriving DecidableEq

/-- `type_utils.unbind_generics` on one argument: `get_origin(t) or t`. -/
def unbindGeneric : PyArg → PyType
  | .cls t => t
  | .generic o => o

/-- Python `max(xs, key=key)`: first element with maximal key, `None`
(modelled as `none`, for the raised `ValueError`) when empty. -/
def pyMax {α : Type} (key : α → Nat) : List α → Option α
  | [] => none
  | x :: xs => some (xs.foldl (fun best y => if key y > key best then y else best) x)

/-- `type_utils.find_closest_relative`: unbind generics, keep the candidates
the unbound type is a subclass of, take the one with the longest
`hierarchy`; `None` when no candidate relates. -/
def find_closest_relative (t : PyArg) (others : List PyArg) : Option PyType :=
  let t' := unbindGeneric t
  let others' := others.map unbindGeneric
  let relatives := others'.filter (fun other => issubclass t' other)
  pyMax (fun other => (hierarchy other).length) relatives

/-! ### `TypeRegistry` (`type_registry.py`) -/

/-- `TypeRegistry`: an insertion-ordered `dict` from type to handler.  Every
registration the repository performs uses a plain class as the key. -/
structure TypeRegistry (H : Type) where
  entries : List (PyType × H)

/-- `TypeRegistry.find_closest_relative`: optionally filter the registered
keys to subclasses of `constraining_base`, then defer to
`type_utils.find_closest_relative`. -/
def TypeRegistry.findClosestRelative {H : Type} (reg : TypeRegistry H) (t : PyArg)
    (constrainingBase : Option PyType) : Option PyType :=
  let keys := reg.entries.map Prod.fst
  let typesToCompare :=
    match constrainingBase with
    | some b => keys.filter (fun k => issubclass k b)
    | none => keys
  find_closest_relative t (typesToCompare.map PyArg.cls)

/-- `TypeRegistry.__getitem__` with a slice `reg[t:base]`: look up the
closest relative, re-raising any miss as `KeyError` (modelled `none`). -/
def TypeRegistry.getItemSlice {H : Type} (reg : TypeRegistry H) (t : PyArg)
    (constrainingBase : Option PyType) : Option H :=
  match reg.findClosestRelative t constrainingBase with
  | none => none
  | some k => dget reg.entries k

/-- `_Transcoder._resolve_handler` (`transcode.py`): a non-empty overrides
mapping is consulted first; its `KeyError` is swallowed and the global
registry is then consulted. -/
def resolveHandler {H : Type} (registry overrides : TypeRegistry H) (t : PyArg) :
    Option H :=
  if overrides.entries.isEmpty then registry.getItemSlice t none
  else
    match (TypeRegistry.mk overrides.entries).getItemSlice t none with
    | some h => some h
    | none => registry.getItemSlice t none

/-! ## `Locator` (`locator.py`)

`pydoc.locate` (ordinary global-symbol resolution) is modelled by an
environment association-list `PyEnv` from fully-qualified name to the type
it imports to; a name absent from the environment is one `pydoc.locate`
returns `None` for.  `get_fully_qualified_name` is modelled by reading the
stored name of a `PyType` (the Python code computes it from
`__module__`/`__qualname__`). -/

abbrev PyEnv := List (String × PyType)

/-- `type_utils.get_fully_qualified_name` on the type model. -/
def getFullyQualifiedName (t : PyType) : String :=
  match t with
  | .mk n _ => n

/-- Exceptions a `Locator` call can raise. -/
inductive LocErr where
  | permissionDenied
  | typeError
deriving DecidableEq

/-- The two load policies `locator.py` defines (`LoadPolicy` is a protocol;
these are its only implementations in the repository). -/
inductive LoadPolicy where
  | strictPolicy
  | allowSubclassPolicy
deriving DecidableEq

/-- `locator.strict`: resolve only names present in the allow-list
(`typedict`); raise `PermissionError` (via `_disallow`) otherwise. -/
def strictLoad (typedict : List (String × PyType)) (fullyQualifiedName : String) :
    Except LocErr (Option PyType) :=
  match dget typedict fullyQualifiedName with
  | some t => .ok (some t)
  | none => .error .permissionDenied

/-- `locator.allow_subclass`: ordinarily resolve the name, return it when the
result is a subclass of some allow-listed type, fall through returning `None`
otherwise.  When ordinary resolution fails (`_locate` gives `None`) and the
allow-list is non-empty, `issubclass(None, allowed)` raises `TypeError`. -/
def allowSubclassLoad (typedict : List (String × PyType)) (env : PyEnv)
    (fullyQualifiedName : String) : Except LocErr (Option PyType) :=
  match dget env fullyQualifiedName with
  | some t =>
    if typedict.any (fun p => issubclass t p.2) then .ok (some t) else .ok none
  | none =>
    if typedict.isEmpty then .ok none else .error .typeError

/-- `locator._special_cases`: the names of `NoneType` (absence type), the
function type and the bound-method type, mapped to those built-ins.  Their
fully-qualified names are `"NoneType"`, `"function"` and `"method"` since
all three live in module `builtins`. -/
def objectType : PyType := .mk "object" []

def noneTypePy : PyType := .mk "NoneType" [objectType]

def functionTypePy : PyType := .mk "function" [objectType]

def methodTypePy : PyType := .mk "method" [objectType]

def specialCases : List (String × PyType) :=
  [(getFullyQualifiedName noneTypePy, noneTypePy),
   (getFullyQualifiedName functionTypePy, functionTypePy),
   (getFullyQualifiedName methodTypePy, methodTypePy)]

/-- `Locator`: an allow-list `dict` plus an optional load policy. -/
structure Locator where
  allowed : List (String × PyType)
  loadPolicy : Option LoadPolicy

/-- `Locator.allow`: add one type (keyed by its fully-qualified name) to the
allow-list. -/
def Locator.allow (loc : Locator) (t : PyType) : Locator :=
  { loc with allowed := dset loc.allowed (getFullyQualifiedName t) t }

/-- `Locator.__call__`: with a policy installed the policy alone decides;
without one, ordinary resolution is tried first, then the special cases,
then `TypeError`. -/
def Locator.call (loc : Locator) (env : PyEnv) (fullyQualifiedName : String) :
    Except LocErr (Option PyType) :=
  match loc.loadPolicy with
  | some .strictPolicy => strictLoad loc.allowed fullyQualifiedName
  | some .allowSubclassPolicy => allowSubclassLoad loc.allowed env fullyQualifiedName
  | none =>
    match dget env fullyQualifiedName with
    | some result => .ok (some result)
    | none =>
      match dget specialCases fullyQualifiedName with
      | some t => .ok (some t)
      | none => .error .typeError

/-! ## The transcoder (`transcode.py`)

Serialized payloads are JSON values shaped `[type-name, body]`; for
reference-tracked objects `body = (handler-data, identifier)`.  The payload
type below carries the type-name string and splits on the handler-data
shape; decode dispatch is driven by the type-name alone, exactly as in the
code (`Decoder._unpack` resolves the name, `_resolve_handler` picks the
handler registered for the resolved type). -/

/-- A Python primitive literal (`str`/`int`/`float`/`bool`/`None`). -/
inductive Lit where
  | i (n : Int)
  | s (x : String)
  | b (x : Bool)
  | f (x : Rat)
  | nil
deriving DecidableEq

/-- `get_fully_qualified_name(type(obj))` for a primitive `obj`. -/
def litTypeName : Lit → String
  | .i _ => "int"
  | .s _ => "str"
  | .b _ => "bool"
  | .f _ => "float"
  | .nil => "NoneType"

/-- Serialized payloads `[type-name, body]`.  `prim` has a bare literal body
(`PrimitiveEncoder._pack`); the other constructors are the
reference-tracked shape `[type-name, (handler-data, identifier)]` with
handler-data a child-payload list (collections), a key/value payload pair
list (mappings; on the wire this is its transpose, the two parallel lists
`[*zip(*pairs)]` that `DictEncoder` emits and `DictDecoder` re-`zip`s — a
bijection at the equal lengths the encoder produces), a symbolic name
(enums), a number (datetimes) or a referenced identifier
(`_ObjectReference`). -/
inductive Payload where
  | prim (ty : String) (l : Lit)
  | coll (ty : String) (items : List Payload) (oid : Nat)
  | kv (ty : String) (pairs : List (Payload × Payload)) (oid : Nat)
  | nmObj (ty : String) (member : String) (oid : Nat)
  | numObj (ty : String) (x : Rat) (oid : Nat)
  | refObj (ty : String) (target : Nat) (oid : Nat)

/-- The identifier attached to a payload; primitives carry none. -/
def Payload.objId : Payload → Option Nat
  | .prim _ _ => none
  | .coll _ _ oid => some oid
  | .kv _ _ oid => some oid
  | .nmObj _ _ oid => some oid
  | .numObj _ _ oid => some oid
  | .refObj _ _ oid => some oid

/-- The type-name of a payload. -/
def Payload.tyName : Payload → String
  | .prim ty _ => ty
  | .coll ty _ _ => ty
  | .kv ty _ _ => ty
  | .nmObj ty _ _ => ty
  | .numObj ty _ _ => ty
  | .refObj ty _ _ => ty

/-- Decoded values: everything the built-in handlers of `transcode.py` can
produce for the supported value universe (primitives, collections,
mappings, enum members, datetimes, type and function objects). -/
inductive Value where
  | vint (n : Int)
  | vstr (s : String)
  | vbool (b : Bool)
  | vfloat (x : Rat)
  | vnone
  | vlist (xs : List Value)
  | vtuple (xs : List Value)
  | vset (xs : List Value)
  | vdict (entries : List (Value × Value))
  | venum (tyName : String) (member : String)
  | vdatetime (ts : Rat)
  | vtype (fqn : String)
  | vfunc (fqn : String)

/-- The runtime-type-plus-handler outcome of resolving a type name at decode
time.  The decoder registry of `transcode.py` is static, so the handler
chosen by `closest_relative` is a function of the resolved type: primitives
map to `PrimitiveDecoder` (`NoneType` to `NoneTypeDecoder`), `type` and
`function` to `TypeDecoder`, `tuple`/`set`/`list` to `CollectionDecoder`,
`dict` to `DictDecoder`, `Enum` subclasses to `EnumDecoder`, `datetime` to
`DateTimeDecoder`, `_ObjectReference` to `_ObjectReferenceDecoder`, and any
other located class to no handler at all (`KeyError`, case `rclass`). -/
inductive RTy where
  | rstr | rint | rfloat | rbool | rnone
  | rlist | rtuple | rset | rdict
  | rdatetime | robjref | rtype | rfunction
  | renum (members : List String)
  | rclass
deriving DecidableEq

/-- The decode-side environment: enum types importable by fully-qualified
name (with their member names) and other importable classes/functions. -/
structure TrEnv where
  enums : List (String × List String)
  classes : List String

/-- Resolution of the builtin/registered type names the encoder emits,
under the default (policy-free) `Locator`.  `"NoneType"` and `"function"`
resolve through `locator._special_cases`; the rest resolve as ordinary
global symbols. -/
def builtinRTy : String → Option RTy
  | "str" => some .rstr
  | "int" => some .rint
  | "float" => some .rfloat
  | "bool" => some .rbool
  | "NoneType" => some .rnone
  | "list" => some .rlist
  | "tuple" => some .rtuple
  | "set" => some .rset
  | "dict" => some .rdict
  | "datetime.datetime" => some .rdatetime
  | "pypg.transcode._ObjectReference" => some .robjref
  | "type" => some .rtype
  | "function" => some .rfunction
  | _ => none

/-- `Decoder._unpack`'s `locator(fully_qualified_name)` under the default
locator, combined with `_resolve_handler`: builtin names first (they can
never be shadowed, since any user-defined type's fully-qualified name is
module-prefixed), then importable enums, then other importable classes;
an unresolvable name is a `TypeError`. -/
def resolveTy (env : TrEnv) (n : String) : Option RTy :=
  match builtinRTy n with
  | some r => some r
  | none =>
    match dget env.enums n with
    | some members => some (.renum members)
    | none => if env.classes.contains n then some .rclass else none

/-- Does the resolved handler run `Decoder.decode` (which consults the
shared decoded-object cache)?  The `PrimitiveDecoder` family
(`rstr/rint/rfloat/rbool/rnone/rtype/rfunction`) overrides `decode` and
never touches the cache; `rclass` fails before `decode` is reached. -/
def usesCache : RTy → Bool
  | .rlist | .rtuple | .rset | .rdict | .rdatetime | .robjref | .renum _ => true
  | _ => false

/-- Exceptions a decode can raise. -/
inductive DecErr where
  | typeErr
  | keyErr
  | constructionErr
deriving DecidableEq

/-- The decoded-object cache shared by a `Decoder` call tree. -/
abbrev Cache := List (Nat × Value)

mutual

/-- `Decoder.__new__` + `Decoder.decode` under the default locator:
resolve the type name, pick the handler the registry dispatch determines,
consult the shared cache for reference-tracked handlers, otherwise run the
handler body and cache the instance strictly after construction.
Body-shape/handler mismatches (unreachable for encoder-produced payloads)
are modelled as errors. -/
def decodeV (env : TrEnv) : Payload → Cache → Except DecErr (Value × Cache)
  | .prim ty l, c =>
    match resolveTy env ty with
    | none => .error .typeErr
    | some rt =>
      match rt, l with
      | .rint, .i n => .ok (.vint n, c)
      | .rstr, .s x => .ok (.vstr x, c)
      | .rbool, .b x => .ok (.vbool x, c)
      | .rfloat, .f x => .ok (.vfloat x, c)
      | .rnone, _ => .ok (.vnone, c)
      | .rtype, .s fqn =>
        if (resolveTy env fqn).isSome then .ok (.vtype fqn, c) else .error .typeErr
      | .rfunction, .s fqn =>
        if (resolveTy env fqn).isSome then .ok (.vfunc fqn, c) else .error .typeErr
      | .rclass, _ => .error .keyErr
      | _, _ => .error .constructionErr
  | .coll ty items oid, c =>
    match resolveTy env ty with
    | none => .error .typeErr
    | some .rclass => .error .keyErr
    | some rt =>
      if usesCache rt then
        match dget c oid with
        | some v => .ok (v, c)
        | none =>
          match rt with
          | .rlist =>
            match decodeList env items c with
            | .ok (vs, c') => .ok (.vlist vs, dset c' oid (.vlist vs))
            | .error e => .error e
          | .rtuple =>
            match decodeList env items c with
            | .ok (vs, c') => .ok (.vtuple vs, dset c' oid (.vtuple vs))
            | .error e => .error e
          | .rset =>
            match decodeList env items c with
            | .ok (vs, c') => .ok (.vset vs, dset c' oid (.vset vs))
            | .error e => .error e
          | _ => .error .typeErr
      else .error .typeErr
  | .kv ty pairs oid, c =>
    match resolveTy env ty with
    | none => .error .typeErr
    | some .rclass => .error .keyErr
    | some rt =>
      if usesCache rt then
        match dget c oid with
        | some v => .ok (v, c)
        | none =>
          match rt with
          | .rdict =>
            match decodePairs env pairs c with
            | .ok (es, c') => .ok (.vdict es, dset c' oid (.vdict es))
            | .error e => .error e
          | _ => .error .typeErr
      else .error .typeErr
  | .nmObj ty member oid, c =>
    match resolveTy env ty with
    | none => .error .typeErr
    | some .rclass => .error .keyErr
    | some rt =>
      if usesCache rt then
        match dget c oid with
        | some v => .ok (v, c)
        | none =>
          match rt with
          | .renum members =>
            if members.contains member then
              .ok (.venum ty member, dset c oid (.venum ty member))
            else .error .keyErr
          | _ => .error .typeErr
      else .error .typeErr
  | .numObj ty x oid, c =>
    match resolveTy env ty with
    | none => .error .typeErr
    | some .rclass => .error .keyErr
    | some rt =>
      if usesCache rt then
        match dget c oid with
        | some v => .ok (v, c)
        | none =>
          match rt with
          | .rdatetime => .ok (.vdatetime x, dset c oid (.vdatetime x))
          | _ => .error .typeErr
      else .error .typeErr
  | .refObj ty target oid, c =>
    match resolveTy env ty with
    | none => .error .typeErr
    | some .rclass => .error .keyErr
    | some rt =>
      if usesCache rt then
        match dget c oid with
        | some v => .ok (v, c)
        | none =>
          match rt with
          | .robjref =>
            match dget c target with
            | some v => .ok (v, dset c oid v)
            | none => .error .keyErr
          | _ => .error .typeErr
      else .error .typeErr

/-- `CollectionDecoder._decode`'s generator: decode the children in order,
threading the shared cache. -/
def decodeList (env : TrEnv) : List Payload → Cache → Except DecErr (List Value × Cache)
  | [], c => .ok ([], c)
  | p :: ps, c =>
    match decodeV env p c with
    | .ok (v, c') =>
      match decodeList env ps c' with
      | .ok (vs, c'') => .ok (v :: vs, c'')
      | .error e => .error e
    | .error e => .error e

/-- `DictDecoder._decode`: for each zipped key/value pair, decode the key
then the value (dict-comprehension evaluation order), in pair order. -/
def decodePairs (env : TrEnv) :
    List (Payload × Payload) → Cache → Except DecErr (List (Value × Value) × Cache)
  | [], c => .ok ([], c)
  | (k, v) :: t, c =>
    match decodeV env k c with
    | .ok (kv', c') =>
      match decodeV env v c' with
      | .ok (vv, c'') =>
        match decodePairs env t c'' with
        | .ok (es, c''') => .ok ((kv', vv) :: es, c''')
        | .error e => .error e
      | .error e => .error e
    | .error e => .error e

end

/-- Top-level `decode(obj_data, locator, overrides=None)`: a fresh `Decoder`
with an empty decoded-object cache; the result is its `instance`. -/
def decodeTop (env : TrEnv) (p : Payload) : Except DecErr Value :=
  match decodeV env p [] with
  | .ok (v, _) => .ok v
  | .error e => .error e

/-! ## The encoder

Two faithful views of `Encoder.__init__`/`Encoder._pack` are given.
`encodeV` encodes a freshly constructed acyclic value (each constructor
occurrence is a distinct Python object, so `MonotonicID` hands out the
next counter; interning of small primitives only changes the unused
identifiers of primitives, which never reach a payload).  `encodeH` below
encodes an arbitrary heap of possibly shared, possibly cyclic objects and
is fuel-indexed, since the Python recursion need not terminate there. -/

/-- The framework name of the reference-marker class. -/
def objRefName : String := "pypg.transcode._ObjectReference"

/-- Encoder state: the `MonotonicID` counter (`len(objects)`) and the shared
entry table `self.data`. -/
structure EncSt where
  next : Nat
  data : List (Nat × Payload)

/-- Encoding of `Encoder(_ObjectReference(obj), self, ...)`: the fresh
wrapper object is assigned the next identifier, `_ObjectReferenceEncoder.
_encode` emits the referenced object's (already assigned) identifier, and
the inherited `Encoder._pack` stores the marker payload at the wrapper's
own identifier. -/
def emitRef (target : Nat) (st : EncSt) : Payload × EncSt :=
  let refId := st.next
  let p := Payload.refObj objRefName target refId
  (p, { next := st.next + 1, data := dset st.data refId p })

mutual

/-- `Encoder.__init__` + `Encoder._pack` on a freshly constructed value:
assign the identifier, emit a reference if the entry table already has it
(impossible for fresh identifiers, but the check is the code's), otherwise
encode the body first and only then store the entry. -/
def encodeV : Value → EncSt → Payload × EncSt
  | v, st =>
    let oid := st.next
    let st1 : EncSt := { st with next := st.next + 1 }
    match v with
    | .vint n => (.prim "int" (.i n), st1)
    | .vstr x => (.prim "str" (.s x), st1)
    | .vbool x => (.prim "bool" (.b x), st1)
    | .vfloat x => (.prim "float" (.f x), st1)
    | .vnone => (.prim "NoneType" .nil, st1)
    | .vtype fqn => (.prim "type" (.s fqn), st1)
    | .vfunc fqn => (.prim "function" (.s fqn), st1)
    | .vlist xs =>
      match dget st1.data oid with
      | some _ => emitRef oid st1
      | none =>
        let (ps, st2) := encodeVList xs st1
        let p := Payload.coll "list" ps oid
        (p, { st2 with data := dset st2.data oid p })
    | .vtuple xs =>
      match dget st1.data oid with
      | some _ => emitRef oid st1
      | none =>
        let (ps, st2) := encodeVList xs st1
        let p := Payload.coll "tuple" ps oid
        (p, { st2 with data := dset st2.data oid p })
    | .vset xs =>
      match dget st1.data oid with
      | some _ => emitRef oid st1
      | none =>
        let (ps, st2) := encodeVList xs st1
        let p := Payload.coll "set" ps oid
        (p, { st2 with data := dset st2.data oid p })
    | .vdict es =>
      match dget st1.data oid with
      | some _ => emitRef oid st1
      | none =>
        let (kps, st2) := encodeVFirsts es st1
        let (vps, st3) := encodeVSeconds es st2
        let p := Payload.kv "dict" (kps.zip vps) oid
        (p, { st3 with data := dset st3.data oid p })
    | .venum ty member =>
      match dget st1.data oid with
      | some _ => emitRef oid st1
      | none =>
        let p := Payload.nmObj ty member oid
        (p, { st1 with data := dset st1.data oid p })
    | .vdatetime ts =>
      match dget st1.data oid with
      | some _ => emitRef oid st1
      | none =>
        let p := Payload.numObj "datetime.datetime" ts oid
        (p, { st1 with data := dset st1.data oid p })

/-- `CollectionEncoder._encode`: encode the members in order, threading the
shared state. -/
def encodeVList : List Value → EncSt → List Payload × EncSt
  | [], st => ([], st)
  | x :: xs, st =>
    let (p, st') := encodeV x st
    let (ps, st'') := encodeVList xs st'
    (p :: ps, st'')

/-- The first pass of `DictEncoder._encode`'s `zip(*...)`: `zip` pulls one
element from each per-item generator in item order, so all keys are encoded
first, in item order. -/
def encodeVFirsts : List (Value × Value) → EncSt → List Payload × EncSt
  | [], st => ([], st)
  | (k, _) :: es, st =>
    let (p, st') := encodeV k st
    let (ps, st'') := encodeVFirsts es st'
    (p :: ps, st'')

/-- The second pass of `DictEncoder._encode`'s `zip(*...)`: the values, in
item order, after all keys. -/
def encodeVSeconds : List (Value × Value) → EncSt → List Payload × EncSt
  | [], st => ([], st)
  | (_, v) :: es, st =>
    let (p, st') := encodeV v st
    let (ps, st'') := encodeVSeconds es st'
    (p :: ps, st'')

end

/-- Top-level `encode(obj)`: a fresh `Encoder` with an empty entry table and
a fresh `MonotonicID`; the result is its `obj_data`.  (The parent-is-`None`
epilogue `self.data[self._obj_id] = self.obj_id` only rewrites the entry
table, which `encode` does not return.) -/
def encodeTop (v : Value) : Payload :=
  (encodeV v ⟨0, []⟩).1

/-! ## The heap encoder -/

/-- The three collection kinds `CollectionEncoder` handles. -/
inductive CKind where
  | clist | ctuple | cset
deriving DecidableEq

def CKind.pyName : CKind → String
  | .clist => "list"
  | .ctuple => "tuple"
  | .cset => "set"

/-- A heap node: a runtime object, with object-valued fields given as heap
addresses. -/
inductive HNode where
  | hprim (l : Lit)
  | hcoll (k : CKind) (items : List Nat)
  | hdict (entries : List (Nat × Nat))
  | henum (ty : String) (member : String)
  | hdatetime (x : Rat)
deriving DecidableEq

/-- A heap: finitely many live objects at distinct addresses. -/
abbrev Heap := List (Nat × HNode)

/-- Heap-encoder state: `MonotonicID.objects` (address → assigned id), the
counter `len(objects)` and the shared entry table. -/
structure EncStH where
  ids : List (Nat × Nat)
  next : Nat
  data : List (Nat × Payload)

/-- `MonotonicID.__call__`: return the recorded id for this address, or
record `len(objects)` as its id. -/
def getId (a : Nat) (st : EncStH) : Nat × EncStH :=
  match dget st.ids a with
  | some i => (i, st)
  | none => (st.next, { st with ids := dset st.ids a st.next, next := st.next + 1 })

/-- As `emitRef`, for the heap encoder: the temporary `_ObjectReference`
wrapper lives at a fresh address, so `MonotonicID` hands it the next
counter (the wrapper is never encountered again, so its `objects` entry is
not modelled; only the counter advance is observable). -/
def emitRefH (target : Nat) (st : EncStH) : Payload × EncStH :=
  let refId := st.next
  let p := Payload.refObj objRefName target refId
  (p, { st with next := st.next + 1, data := dset st.data refId p })

/-- Sequential encoding of a list of member addresses with a given
single-object encoder, threading state; any member failure propagates. -/
def encodeListH (enc : Nat → EncStH → Option (Payload × EncStH)) :
    List Nat → EncStH → Option (List Payload × EncStH)
  | [], st => some ([], st)
  | a :: as, st =>
    match enc a st with
    | some (p, st') =>
      match encodeListH enc as st' with
      | some (ps, st'') => some (p :: ps, st'')
      | none => none
    | none => none

/-- `Encoder.__init__` + `Encoder._pack` on an arbitrary heap object, with
fuel bounding the recursion depth (each child runs in a nested `Encoder`):
assign the identifier; primitives encode as bare literals without touching
the entry table; when the entry table already holds this identifier, emit
an `_ObjectReference` marker; otherwise encode the body FIRST and only then
store `[type-name, (body, id)]` at the identifier — the store on line 151
of `transcode.py` runs after `self._encode(obj)` has returned. -/
def encodeH (h : Heap) : Nat → Nat → EncStH → Option (Payload × EncStH)
  | 0, _, _ => none
  | fuel + 1, a, st =>
    match dget h a with
    | none => none
    | some node =>
      let (oid, st1) := getId a st
      match node with
      | .hprim l => some (.prim (litTypeName l) l, st1)
      | .hcoll k items =>
        match dget st1.data oid with
        | some _ => some (emitRefH oid st1)
        | none =>
          match encodeListH (encodeH h fuel) items st1 with
          | some (ps, st2) =>
            let p := Payload.coll k.pyName ps oid
            some (p, { st2 with data := dset st2.data oid p })
          | none => none
      | .hdict es =>
        match dget st1.data oid with
        | some _ => some (emitRefH oid st1)
        | none =>
          match encodeListH (encodeH h fuel) (es.map Prod.fst) st1 with
          | some (kps, st2) =>
            match encodeListH (encodeH h fuel) (es.map Prod.snd) st2 with
            | some (vps, st3) =>
              let p := Payload.kv "dict" (kps.zip vps) oid
              some (p, { st3 with data := dset st3.data oid p })
            | none => none
          | none => none
      | .henum ty member =>
        match dget st1.data oid with
        | some _ => some (emitRefH oid st1)
        | none =>
          let p := Payload.nmObj ty member oid
          some (p, { st1 with data := dset st1.data oid p })
      | .hdatetime x =>
        match dget st1.data oid with
        | some _ => some (emitRefH oid st1)
        | none =>
          let p := Payload.numObj "datetime.datetime" x oid
          some (p, { st1 with data := dset st1.data oid p })

/-- The initial shared state of a top-level `Encoder`. -/
def initEncStH : EncStH := ⟨[], 0, []⟩

mutual

/-- A value is built only from supported/registered types relative to a
decode environment: enum members name an importable enum type (whose
fully-qualified, hence module-prefixed, name is no builtin name) and one of
its members; type/function values name an importable symbol. -/
def Value.wf (env : TrEnv) : Value → Bool
  | .venum ty member =>
    (builtinRTy ty).isNone &&
      (match dget env.enums ty with
       | some members => members.contains member
       | none => false)
  | .vtype fqn => (resolveTy env fqn).isSome
  | .vfunc fqn => (resolveTy env fqn).isSome
  | .vlist xs => Value.wfList env xs
  | .vtuple xs => Value.wfList env xs
  | .vset xs => Value.wfList env xs
  | .vdict es => Value.wfPairs env es
  | _ => true

def Value.wfList (env : TrEnv) : List Value → Bool
  | [] => true
  | x :: xs => Value.wf env x && Value.wfList env xs

def Value.wfPairs (env : TrEnv) : List (Value × Value) → Bool
  | [] => true
  | (k, v) :: es => Value.wf env k && Value.wf env v && Value.wfPairs env es

end

/-! ## Registry lemmas and claims C5/C10 -/

theorem pyMax_foldl_spec {α : Type} (key : α → Nat) (xs : List α) (b : α) :
    (xs.foldl (fun best y => if key y > key best then y else best) b = b ∨
      xs.foldl (fun best y => if key y > key best then y else best) b ∈ xs) ∧
    key b ≤ key (xs.foldl (fun best y => if key y > key best then y else best) b) ∧
    ∀ x ∈ xs, key x ≤ key (xs.foldl (fun best y => if key y > key best then y else best) b) := by
  induction xs generalizing b with
  | nil => simp
  | cons y ys ih =>
    simp only [List.foldl_cons]
    by_cases h : key y > key b
    · simp only [if_pos h]
      obtain ⟨hmem, hge, hall⟩ := ih y
      refine ⟨?_, ?_, ?_⟩
      · rcases hmem with h' | h'
        · exact Or.inr (by simp [h'])
        · exact Or.inr (List.mem_cons_of_mem _ h')
      · omega
      · intro x hx
        rcases List.mem_cons.mp hx with rfl | hx
        · exact hge
        · exact hall x hx
    · simp only [if_neg h]
      obtain ⟨hmem, hge, hall⟩ := ih b
      refine ⟨?_, ?_, ?_⟩
      · rcases hmem with h' | h'
        · exact Or.inl h'
        · exact Or.inr (List.mem_cons_of_mem _ h')
      · exact hge
      · intro x hx
        rcases List.mem_cons.mp hx with rfl | hx
        · omega
        · exact hall x hx

theorem pyMax_spec {α : Type} (key : α → Nat) (l : List α) (m : α)
    (h : pyMax key l = some m) : m ∈ l ∧ ∀ x ∈ l, key x ≤ key m := by
  cases l with
  | nil => simp [pyMax] at h
  | cons x xs =>
    simp only [pyMax, Option.some.injEq] at h
    obtain ⟨hmem, hge, hall⟩ := pyMax_foldl_spec key xs x
    subst h
    constructor
    · rcases hmem with h' | h'
      · simp [h']
      · exact List.mem_cons_of_mem _ h'
    · intro y hy
      rcases List.mem_cons.mp hy with rfl | hy
      · exact hge
      · exact hall y hy

/-- The registered keys the slice lookup actually compares the candidate
against: filtered by the constraining base (if any) and then to ancestors
of the (unbound) candidate. -/
def eligibleKeys {H : Type} (reg : TypeRegistry H) (t : PyArg)
    (constrainingBase : Option PyType) : List PyType :=
  let keys := reg.entries.map Prod.fst
  let filtered :=
    match constrainingBase with
    | some b => keys.filter (fun k => issubclass k b)
    | none => keys
  filtered.filter (fun k => issubclass (unbindGeneric t) k)

theorem findClosestRelative_eq_pyMax {H : Type} (reg : TypeRegistry H) (t : PyArg)
    (ba : Option PyType) :
    reg.findClosestRelative t ba =
      pyMax (fun k => (hierarchy k).length) (eligibleKeys reg t ba) := by
  unfold TypeRegistry.findClosestRelative find_closest_relative eligibleKeys
  cases ba <;> simp [List.map_map, Function.comp_def, unbindGeneric]

theorem getItemSlice_none_of_eligible_nil {H : Type} (reg : TypeRegistry H) (t : PyArg)
    (ba : Option PyType) (h : eligibleKeys reg t ba = []) :
    reg.getItemSlice t ba = none := by
  unfold TypeRegistry.getItemSlice
  rw [findClosestRelative_eq_pyMax, h]
  rfl

theorem eligible_mem_keys {H : Type} {reg : TypeRegistry H} {t : PyArg}
    {ba : Option PyType} {k : PyType} (h : k ∈ eligibleKeys reg t ba) :
    k ∈ reg.entries.map Prod.fst := by
  unfold eligibleKeys at h
  cases ba with
  | none => exact (List.mem_filter.mp h).1
  | some b => exact (List.mem_filter.mp (List.mem_filter.mp h).1).1

theorem getItemSlice_isSome_of_eligible {H : Type} (reg : TypeRegistry H) (t : PyArg)
    (ba : Option PyType) (h : eligibleKeys reg t ba ≠ []) :
    (reg.getItemSlice t ba).isSome := by
  unfold TypeRegistry.getItemSlice
  rw [findClosestRelative_eq_pyMax]
  cases hk : eligibleKeys reg t ba with
  | nil => exact absurd hk h
  | cons x xs =>
    simp only [pyMax]
    have hmem : (xs.foldl (fun best y =>
        if (hierarchy y).length > (hierarchy best).length then y else best) x) ∈
        eligibleKeys reg t ba := by
      obtain ⟨hmem, -, -⟩ :=
        pyMax_foldl_spec (fun k => (hierarchy k).length) xs x
      rcases hmem with h' | h'
      · rw [hk, h']; exact List.mem_cons_self _ _
      · rw [hk]; exact List.mem_cons_of_mem _ h'
    exact dget_isSome_of_key_mem _ _ (eligible_mem_keys hmem)

theorem getItemSlice_some_spec {H : Type} (reg : TypeRegistry H) (t : PyArg)
    (ba : Option PyType) (hh : H) (h : reg.getItemSlice t ba = some hh) :
    ∃ k ∈ eligibleKeys reg t ba, dget reg.entries k = some hh ∧
      ∀ k' ∈ eligibleKeys reg t ba, (hierarchy k').length ≤ (hierarchy k).length := by
  unfold TypeRegistry.getItemSlice at h
  rw [findClosestRelative_eq_pyMax] at h
  cases hp : pyMax (fun k => (hierarchy k).length) (eligibleKeys reg t ba) with
  | none => rw [hp] at h; exact absurd h (by simp)
  | some k =>
    rw [hp] at h
    obtain ⟨hmem, hmax⟩ := pyMax_spec _ _ _ hp
    exact ⟨k, hmem, h, hmax⟩

/-- Handler classes for the concrete dispatch scenario: `B` a subclass of
`A`, `C` an unregistered subclass of `B`, `X` unrelated. -/
def tyA : PyType := .mk "A" [objectType]

def tyB : PyType := .mk "B" [tyA]

def tyC : PyType := .mk "C" [tyB]

def tyX : PyType := .mk "X" [objectType]

def regAB : TypeRegistry String := ⟨[(tyA, "encoderA"), (tyB, "encoderB")]⟩

/-- C5: closest-relative lookup returns, among the registered keys the
(unbound) candidate is a subtype of — optionally pre-filtered to subtypes
of a constraining base — a key of maximal ancestor-chain length (and its
handler); it returns a handler exactly when some eligible key exists, and
`KeyError` (`none`) when no registered key is an ancestor.  Concretely,
with handlers for `A` and its subtype `B` registered, an instance of the
unregistered subtype `C` (also as a parameterized generic with origin `C`)
dispatches to `B`'s handler, and a candidate with no registered ancestor
fails. -/
theorem transcoder_c5 :
    (∀ (H : Type) (reg : TypeRegistry H) (t : PyArg) (ba : Option PyType),
      (eligibleKeys reg t ba = [] → reg.getItemSlice t ba = none) ∧
      (eligibleKeys reg t ba ≠ [] → (reg.getItemSlice t ba).isSome) ∧
      (∀ hh, reg.getItemSlice t ba = some hh →
        ∃ k ∈ eligibleKeys reg t ba, dget reg.entries k = some hh ∧
          ∀ k' ∈ eligibleKeys reg t ba, (hierarchy k').length ≤ (hierarchy k).length)) ∧
    regAB.getItemSlice (.cls tyC) none = some "encoderB" ∧
    regAB.getItemSlice (.generic tyC) none = some "encoderB" ∧
    regAB.getItemSlice (.cls tyX) none = none := by
  refine ⟨fun H reg t ba => ⟨?_, ?_, ?_⟩, rfl, rfl, rfl⟩
  · exact getItemSlice_none_of_eligible_nil reg t ba
  · exact getItemSlice_isSome_of_eligible reg t ba
  · exact getItemSlice_some_spec reg t ba

theorem transcoder_c5_witness :
    (∃ k ∈ eligibleKeys regAB (.cls tyC) none, dget regAB.entries k = some "encoderB" ∧
      ∀ k' ∈ eligibleKeys regAB (.cls tyC) none,
        (hierarchy k').length ≤ (hierarchy k).length) ∧
    regAB.getItemSlice (.cls tyX) none = none :=
  ⟨(transcoder_c5.1 String regAB (.cls tyC) none).2.2 "encoderB" transcoder_c5.2.1,
   (transcoder_c5.1 String regAB (.cls tyX) none).1 rfl⟩

/-- C10: with a handler registered for the runtime type in the global
registry, a non-empty overrides mapping containing no ancestor of that
type is silently skipped — its `KeyError` is swallowed and the
global-registry handler is returned. -/
theorem transcoder_c10 :
    ∀ (H : Type) (registry overrides : TypeRegistry H) (t : PyArg) (h : H),
      overrides.entries ≠ [] →
      (∀ k ∈ overrides.entries.map Prod.fst, issubclass (unbindGeneric t) k = false) →
      registry.getItemSlice t none = some h →
      resolveHandler registry overrides t = some h := by
  intro H registry overrides t h hne hanc hglob
  have helig : eligibleKeys overrides t none = [] := by
    unfold eligibleKeys
    simp only [List.filter_eq_nil_iff]
    intro k hk
    simp [hanc k hk]
  have hov : overrides.getItemSlice t none = none :=
    getItemSlice_none_of_eligible_nil overrides t none helig
  unfold resolveHandler
  rw [if_neg (by simpa using hne)]
  have : (TypeRegistry.mk overrides.entries) = overrides := rfl
  rw [this, hov, hglob]

def regX : TypeRegistry String := ⟨[(tyX, "encoderX")]⟩

theorem transcoder_c10_witness :
    resolveHandler regAB regX (.cls tyC) = some "encoderB" :=
  transcoder_c10 String regAB regX (.cls tyC) "encoderB" (by simp [regX])
    (by intro k hk; simp [regX] at hk; subst hk; rfl) rfl

/-! ## Locator claims C6/C7/C8 -/

def tyFoo : PyType := .mk "m.Foo" [objectType]

def tyBar : PyType := .mk "m.Bar" [tyFoo]

def tyQux : PyType := .mk "m.Qux" [objectType]

/-- C6: under the strict policy, a name absent from the allow-list fails
with `PermissionError`, an allow-listed name resolves to the allow-listed
type, and after `allow(T)` the fully-qualified name of `T` resolves
to `T`. -/
theorem locator_c6 :
    ∀ (loc : Locator) (env : PyEnv) (n : String) (t : PyType),
      loc.loadPolicy = some .strictPolicy →
      (dget loc.allowed n = none → loc.call env n = .error .permissionDenied) ∧
      (dget loc.allowed n = some t → loc.call env n = .ok (some t)) ∧
      (loc.allow t).call env (getFullyQualifiedName t) = .ok (some t) := by
  intro loc env n t hpol
  refine ⟨fun hn => ?_, fun hn => ?_, ?_⟩
  · simp [Locator.call, hpol, strictLoad, hn]
  · simp [Locator.call, hpol, strictLoad, hn]
  · simp [Locator.call, Locator.allow, hpol, strictLoad, dget_dset_self]

def strictFooLoc : Locator := ⟨[("m.Foo", tyFoo)], some .strictPolicy⟩

theorem locator_c6_witness :
    (strictFooLoc.call [] "m.Bar" = .error .permissionDenied) ∧
    (strictFooLoc.call [] "m.Foo" = .ok (some tyFoo)) ∧
    (strictFooLoc.allow tyBar).call [] "m.Bar" = .ok (some tyBar) :=
  ⟨(locator_c6 strictFooLoc [] "m.Bar" tyFoo rfl).1 rfl,
   (locator_c6 strictFooLoc [] "m.Foo" tyFoo rfl).2.1 rfl,
   (locator_c6 strictFooLoc [] "m.Bar" tyBar rfl).2.2⟩

def subclassFooLoc : Locator := ⟨[("m.Foo", tyFoo)], some .allowSubclassPolicy⟩

def envQux : PyEnv := [("m.Qux", tyQux)]

/-- C7, counterexample: under the subclass policy, a name whose ordinary
resolution is NOT a subtype of an allowed type does not make the call fail
— `allow_subclass` falls through and the call returns `None`. -/
theorem locator_c7_counterexample :
    subclassFooLoc.call envQux "m.Qux" = .ok none ∧
    subclassFooLoc.call envQux "m.Qux" ≠ .error .permissionDenied ∧
    subclassFooLoc.call envQux "m.Qux" ≠ .error .typeError := by
  have h : subclassFooLoc.call envQux "m.Qux" = .ok none := rfl
  refine ⟨h, ?_, ?_⟩ <;> simp [h]

/-- C7 (amended): under the subclass policy, a name whose ordinary-resolved
type is a subtype of some allow-listed type resolves to that type; a
locatable name failing the subtype test yields `None` (no usable type, but
the call itself succeeds); a name ordinary resolution cannot locate at all
fails with `TypeError` (when the allow-list is non-empty). -/
theorem locator_c7 :
    ∀ (loc : Locator) (env : PyEnv) (n : String) (t : PyType),
      loc.loadPolicy = some .allowSubclassPolicy →
      (dget env n = some t → (loc.allowed.any fun p => issubclass t p.2) = true →
        loc.call env n = .ok (some t)) ∧
      (dget env n = some t → (loc.allowed.any fun p => issubclass t p.2) = false →
        loc.call env n = .ok none) ∧
      (dget env n = none → loc.allowed ≠ [] → loc.call env n = .error .typeError) := by
  intro loc env n t hpol
  refine ⟨fun hn hsub => ?_, fun hn hsub => ?_, fun hn hne => ?_⟩
  · simp [Locator.call, hpol, allowSubclassLoad, hn, hsub]
  · simp [Locator.call, hpol, allowSubclassLoad, hn, hsub]
  · simp [Locator.call, hpol, allowSubclassLoad, hn, hne]

def envBarQux : PyEnv := [("m.Bar", tyBar), ("m.Qux", tyQux)]

theorem locator_c7_witness :
    (subclassFooLoc.call envBarQux "m.Bar" = .ok (some tyBar)) ∧
    (subclassFooLoc.call envBarQux "m.Qux" = .ok none) ∧
    (subclassFooLoc.call envBarQux "m.Missing" = .error .typeError) :=
  ⟨(locator_c7 subclassFooLoc envBarQux "m.Bar" tyBar rfl).1 rfl rfl,
   (locator_c7 subclassFooLoc envBarQux "m.Qux" tyQux rfl).2.1 rfl rfl,
   (locator_c7 subclassFooLoc envBarQux "m.Missing" tyQux rfl).2.2 rfl (by simp [subclassFooLoc])⟩

def strictEmptyLoc : Locator := ⟨[], some .strictPolicy⟩

/-- C8, counterexample: the special-cased names are NOT honoured regardless
of policy — a strict-policy locator with an empty allow-list raises
`PermissionError` for `"NoneType"` instead of returning `NoneType`. -/
theorem locator_c8_counterexample :
    strictEmptyLoc.call [] "NoneType" = .error .permissionDenied ∧
    strictEmptyLoc.call [] "NoneType" ≠ .ok (some noneTypePy) := by
  have h : strictEmptyLoc.call [] "NoneType" = .error .permissionDenied := rfl
  exact ⟨h, by simp [h]⟩

/-- C8 (amended): for a locator with NO load policy installed, when
ordinary resolution fails (as it does for these three built-ins), the
fully-qualified names of the absence type, the function type and the
bound-method type resolve to the corresponding fixed built-in; with a load
policy installed, the policy alone decides. -/
theorem locator_c8 :
    ∀ (loc : Locator) (env : PyEnv),
      loc.loadPolicy = none →
      (dget env "NoneType" = none → loc.call env "NoneType" = .ok (some noneTypePy)) ∧
      (dget env "function" = none → loc.call env "function" = .ok (some functionTypePy)) ∧
      (dget env "method" = none → loc.call env "method" = .ok (some methodTypePy)) := by
  intro loc env hpol
  refine ⟨fun hn => ?_, fun hn => ?_, fun hn => ?_⟩ <;>
    simp [Locator.call, hpol, hn, specialCases, dget, getFullyQualifiedName,
      noneTypePy, functionTypePy, methodTypePy]

def permissiveLoc : Locator := ⟨[], none⟩

theorem locator_c8_witness :
    (permissiveLoc.call [] "NoneType" = .ok (some noneTypePy)) ∧
    (permissiveLoc.call [] "function" = .ok (some functionTypePy)) ∧
    (permissiveLoc.call [] "method" = .ok (some methodTypePy)) :=
  ⟨(locator_c8 permissiveLoc [] rfl).1 rfl,
   (locator_c8 permissiveLoc [] rfl).2.1 rfl,
   (locator_c8 permissiveLoc [] rfl).2.2 rfl⟩

/-! ## Heap-encoder claims C9/C2/C4 -/

theorem getId_data (a : Nat) (st : EncStH) : ((getId a st).2).data = st.data := by
  unfold getId
  cases dget st.ids a <;> rfl

/-- C9: a primitive value always encodes as the bare `[type-name, literal]`
payload with no identifier attached, never stores an entry in the shared
entry table, and never becomes an `_ObjectReference` marker — whatever the
encoder state, in particular on any repeated encounter of the same object.
(The identity provider is still invoked, as for every encoder, but its
answer is unused for primitives.) -/
theorem transcoder_c9 :
    ∀ (h : Heap) (fuel a : Nat) (st : EncStH) (l : Lit),
      dget h a = some (.hprim l) →
      encodeH h (fuel + 1) a st =
        some (.prim (litTypeName l) l, (getId a st).2) ∧
      ((getId a st).2).data = st.data := by
  intro h fuel a st l hp
  constructor
  · show encodeH h (fuel + 1) a st = _
    unfold encodeH
    rw [hp]
  · exact getId_data a st

def primHeap : Heap := [(0, .hprim (.i 5))]

theorem transcoder_c9_witness :
    encodeH primHeap 1 0 ⟨[(0, 0)], 1, [(7, .prim "str" (.s "x"))]⟩ =
      some (.prim "int" (.i 5),
        ⟨[(0, 0)], 1, [(7, .prim "str" (.s "x"))]⟩) ∧
    ((getId 0 ⟨[(0, 0)], 1, [(7, .prim "str" (.s "x"))]⟩).2).data =
      [(7, Payload.prim "str" (.s "x"))] := by
  have := transcoder_c9 primHeap 0 0 ⟨[(0, 0)], 1, [(7, .prim "str" (.s "x"))]⟩ (.i 5) rfl
  exact ⟨this.1, this.2⟩

/-- The failing input for claim C2: a list that contains itself
(`l = []; l.append(l)`), laid out at address 0. -/
def selfListHeap : Heap := [(0, .hcoll .clist [0])]

theorem selfListHeap_encode_aux :
    ∀ (fuel : Nat) (st : EncStH),
      (∀ i, dget st.ids 0 = some i → dget st.data i = none) →
      (∀ j, st.next ≤ j → dget st.data j = none) →
      encodeH selfListHeap fuel 0 st = none := by
  intro fuel
  induction fuel with
  | zero => intro st _ _; rfl
  | succ fuel ih =>
    intro st h1 h2
    show encodeH selfListHeap (fuel + 1) 0 st = none
    unfold encodeH
    have hheap : dget selfListHeap 0 = some (.hcoll .clist [0]) := rfl
    rw [hheap]
    simp only
    unfold getId
    cases hid : dget st.ids 0 with
    | some i =>
      simp only
      rw [h1 i hid]
      have hrec : encodeH selfListHeap fuel 0 st = none := ih st h1 h2
      simp [encodeListH, hrec]
    | none =>
      simp only
      rw [h2 st.next (Nat.le_refl _)]
      have hrec : encodeH selfListHeap fuel 0
          ⟨dset st.ids 0 st.next, st.next + 1, st.data⟩ = none := by
        refine ih _ ?_ ?_
        · intro i hi
          simp only at hi
          rw [dget_dset_self] at hi
          obtain rfl : st.next = i := Option.some.inj hi
          exact h2 _ (Nat.le_refl _)
        · intro j hj
          exact h2 j (Nat.le_trans (Nat.le_succ _) hj)
      simp [encodeListH, hrec]

/-- C2 fails on the code: `Encoder._pack` stores the entry table slot only
AFTER `self._encode(obj)` has encoded the body (transcode.py lines
147-151), so encoding an object that refers back to itself through a
collection recurses without bound — at every recursion-depth budget the
encoding of the self-referential list is still incomplete.  (The earlier
revision of this module stored the slot first, with a comment that the two
stages prevent exactly this recursion.) -/
theorem transcoder_c2 :
    ∀ fuel : Nat, encodeH selfListHeap fuel 0 initEncStH = none := by
  intro fuel
  refine selfListHeap_encode_aux fuel initEncStH ?_ ?_
  · intro i hi
    simp [initEncStH, dget] at hi
  · intro j _
    rfl

/-- The state invariant every reachable encoder state satisfies: entry-table
slots at and beyond the counter are free, and all assigned identifiers are
below the counter. -/
def EncStH.Inv (st : EncStH) : Prop :=
  (∀ j, st.next ≤ j → dget st.data j = none) ∧
  (∀ a i, dget st.ids a = some i → i < st.next)

theorem initEncStH_inv : initEncStH.Inv := by
  constructor
  · intro j _; rfl
  · intro a i hi; simp [initEncStH, dget] at hi

theorem getId_inv (a : Nat) (st : EncStH) (h : st.Inv) :
    ((getId a st).2).Inv ∧ st.next ≤ ((getId a st).2).next ∧
      (getId a st).1 < ((getId a st).2).next := by
  unfold getId
  cases hid : dget st.ids a with
  | some i => exact ⟨h, Nat.le_refl _, h.2 a i hid⟩
  | none =>
    refine ⟨⟨?_, ?_⟩, Nat.le_succ _, Nat.lt_succ_self _⟩
    · intro j hj
      exact h.1 j (Nat.le_trans (Nat.le_succ _) hj)
    · intro a' i hi
      simp only at hi
      by_cases ha' : a = a'
      · subst ha'
        rw [dget_dset_self] at hi
        obtain rfl : st.next = i := Option.some.inj hi
        exact Nat.lt_succ_self _
      · rw [dget_dset_ne _ _ _ _ ha'] at hi
        exact Nat.lt_trans (h.2 a' i hi) (Nat.lt_succ_self _)

theorem emitRefH_inv (t : Nat) (st1 : EncStH) (h : st1.Inv) :
    ((emitRefH t st1).2).Inv ∧ st1.next ≤ ((emitRefH t st1).2).next ∧
      ∀ i q, dget st1.data i = some q → dget ((emitRefH t st1).2).data i = some q := by
  unfold emitRefH
  refine ⟨⟨?_, ?_⟩, Nat.le_succ _, ?_⟩
  · intro j hj
    simp only at hj ⊢
    have hne : st1.next ≠ j := by omega
    rw [dget_dset_ne _ _ _ _ hne]
    exact h.1 j (by omega)
  · intro a i hi
    simp only at hi ⊢
    exact Nat.lt_trans (h.2 a i hi) (Nat.lt_succ_self _)
  · intro i q hi
    simp only
    have hne : st1.next ≠ i := by
      intro hcontra
      subst hcontra
      rw [h.1 st1.next (Nat.le_refl _)] at hi
      exact Option.noConfusion hi
    rw [dget_dset_ne _ _ _ _ hne]
    exact hi

theorem store_inv (st2 : EncStH) (oid : Nat) (p : Payload) (h : st2.Inv)
    (hoid : oid < st2.next) :
    (EncStH.mk st2.ids st2.next (dset st2.data oid p)).Inv ∧
      ∀ i q, i ≠ oid → dget st2.data i = some q →
        dget (dset st2.data oid p) i = some q := by
  refine ⟨⟨?_, h.2⟩, ?_⟩
  · intro j hj
    simp only at hj ⊢
    have hne : oid ≠ j := by omega
    rw [dget_dset_ne _ _ _ _ hne]
    exact h.1 j hj
  · intro i q hne hi
    rw [dget_dset_ne _ _ _ _ (Ne.symm hne)]
    exact hi

theorem encodeListH_pres {enc : Nat → EncStH → Option (Payload × EncStH)}
    (Henc : ∀ a st p st', enc a st = some (p, st') → st.Inv →
      st'.Inv ∧ st.next ≤ st'.next ∧
        ∀ i q, dget st.data i = some q → dget st'.data i = some q) :
    ∀ (as : List Nat) (st : EncStH) (ps : List Payload) (st' : EncStH),
      encodeListH enc as st = some (ps, st') → st.Inv →
      st'.Inv ∧ st.next ≤ st'.next ∧
        ∀ i q, dget st.data i = some q → dget st'.data i = some q := by
  intro as
  induction as with
  | nil =>
    intro st ps st' he hInv
    simp only [encodeListH, Option.some.injEq, Prod.mk.injEq] at he
    obtain ⟨-, rfl⟩ := he
    exact ⟨hInv, Nat.le_refl _, fun i q hi => hi⟩
  | cons a as ih =>
    intro st ps st' he hInv
    simp only [encodeListH] at he
    cases h1 : enc a st with
    | none => rw [h1] at he; exact absurd he (by simp)
    | some r1 =>
      obtain ⟨p1, st1⟩ := r1
      rw [h1] at he
      dsimp only at he
      cases h2 : encodeListH enc as st1 with
      | none => rw [h2] at he; exact absurd he (by simp)
      | some r2 =>
        obtain ⟨ps2, st2⟩ := r2
        rw [h2] at he
        simp only [Option.some.injEq, Prod.mk.injEq] at he
        obtain ⟨-, rfl⟩ := he
        obtain ⟨hInv1, hle1, hpr1⟩ := Henc a st p1 st1 h1 hInv
        obtain ⟨hInv2, hle2, hpr2⟩ := ih st1 ps2 st2 h2 hInv1
        exact ⟨hInv2, Nat.le_trans hle1 hle2, fun i q hi => hpr2 i q (hpr1 i q hi)⟩

theorem encodeH_pres (h : Heap) :
    ∀ (fuel a : Nat) (st : EncStH) (p : Payload) (st' : EncStH),
      encodeH h fuel a st = some (p, st') → st.Inv →
      st'.Inv ∧ st.next ≤ st'.next ∧
        ∀ i q, dget st.data i = some q → dget st'.data i = some q := by
  intro fuel
  induction fuel with
  | zero =>
    intro a st p st' he
    exact absurd he (by simp [encodeH])
  | succ fuel ih =>
    intro a st p st' he hInv
    unfold encodeH at he
    cases hha : dget h a with
    | none => rw [hha] at he; exact absurd he (by simp)
    | some node =>
      rw [hha] at he
      dsimp only at he
      rcases hg : getId a st with ⟨oid, st1⟩
      rw [hg] at he
      have hgi := getId_inv a st hInv
      rw [hg] at hgi
      obtain ⟨hInv1, hle1, hoid1⟩ := hgi
      have hdata1 : st1.data = st.data := by
        have := getId_data a st
        rw [hg] at this
        exact this
      cases node with
      | hprim l =>
        simp only [Option.some.injEq, Prod.mk.injEq] at he
        obtain ⟨-, rfl⟩ := he
        exact ⟨hInv1, hle1, fun i q hi => by rw [hdata1]; exact hi⟩
      | hcoll k items =>
        dsimp only at he
        cases hd : dget st1.data oid with
        | some q0 =>
          rw [hd] at he
          simp only [Option.some.injEq, Prod.mk.injEq] at he
          obtain ⟨-, rfl⟩ := he
          obtain ⟨hInvR, hleR, hprR⟩ := emitRefH_inv oid st1 hInv1
          exact ⟨hInvR, Nat.le_trans hle1 hleR,
            fun i q hi => hprR i q (by rw [hdata1]; exact hi)⟩
        | none =>
          rw [hd] at he
          dsimp only at he
          cases hl : encodeListH (encodeH h fuel) items st1 with
          | none => rw [hl] at he; exact absurd he (by simp)
          | some r2 =>
            obtain ⟨ps, st2⟩ := r2
            rw [hl] at he
            simp only [Option.some.injEq, Prod.mk.injEq] at he
            obtain ⟨-, rfl⟩ := he
            obtain ⟨hInv2, hle2, hpr2⟩ :=
              encodeListH_pres (fun a st p st' => ih a st p st') items st1 ps st2 hl hInv1
            have hoid2 : oid < st2.next := Nat.lt_of_lt_of_le hoid1 hle2
            obtain ⟨hInvS, hprS⟩ := store_inv st2 oid _ hInv2 hoid2
            refine ⟨hInvS, Nat.le_trans hle1 hle2, fun i q hi => ?_⟩
            have hne : i ≠ oid := by
              intro hcontra
              subst hcontra
              rw [hdata1] at hd
              rw [hd] at hi
              exact Option.noConfusion hi
            exact hprS i q hne (hpr2 i q (by rw [hdata1]; exact hi))
      | hdict es =>
        dsimp only at he
        cases hd : dget st1.data oid with
        | some q0 =>
          rw [hd] at he
          simp only [Option.some.injEq, Prod.mk.injEq] at he
          obtain ⟨-, rfl⟩ := he
          obtain ⟨hInvR, hleR, hprR⟩ := emitRefH_inv oid st1 hInv1
          exact ⟨hInvR, Nat.le_trans hle1 hleR,
            fun i q hi => hprR i q (by rw [hdata1]; exact hi)⟩
        | none =>
          rw [hd] at he
          dsimp only at he
          cases hl1 : encodeListH (encodeH h fuel) (es.map Prod.fst) st1 with
          | none => rw [hl1] at he; exact absurd he (by simp)
          | some r2 =>
            obtain ⟨kps, st2⟩ := r2
            rw [hl1] at he
            dsimp only at he
            cases hl2 : encodeListH (encodeH h fuel) (es.map Prod.snd) st2 with
            | none => rw [hl2] at he; exact absurd he (by simp)
            | some r3 =>
              obtain ⟨vps, st3⟩ := r3
              rw [hl2] at he
              simp only [Option.some.injEq, Prod.mk.injEq] at he
              obtain ⟨-, rfl⟩ := he
              obtain ⟨hInv2, hle2, hpr2⟩ :=
                encodeListH_pres (fun a st p st' => ih a st p st')
                  (es.map Prod.fst) st1 kps st2 hl1 hInv1
              obtain ⟨hInv3, hle3, hpr3⟩ :=
                encodeListH_pres (fun a st p st' => ih a st p st')
                  (es.map Prod.snd) st2 vps st3 hl2 hInv2
              have hoid3 : oid < st3.next :=
                Nat.lt_of_lt_of_le hoid1 (Nat.le_trans hle2 hle3)
              obtain ⟨hInvS, hprS⟩ := store_inv st3 oid _ hInv3 hoid3
              refine ⟨hInvS, Nat.le_trans hle1 (Nat.le_trans hle2 hle3),
                fun i q hi => ?_⟩
              have hne : i ≠ oid := by
                intro hcontra
                subst hcontra
                rw [hdata1] at hd
                rw [hd] at hi
                exact Option.noConfusion hi
              exact hprS i q hne (hpr3 i q (hpr2 i q (by rw [hdata1]; exact hi)))
      | henum ty member =>
        dsimp only at he
        cases hd : dget st1.data oid with
        | some q0 =>
          rw [hd] at he
          simp only [Option.some.injEq, Prod.mk.injEq] at he
          obtain ⟨-, rfl⟩ := he
          obtain ⟨hInvR, hleR, hprR⟩ := emitRefH_inv oid st1 hInv1
          exact ⟨hInvR, Nat.le_trans hle1 hleR,
            fun i q hi => hprR i q (by rw [hdata1]; exact hi)⟩
        | none =>
          rw [hd] at he
          simp only [Option.some.injEq, Prod.mk.injEq] at he
          obtain ⟨-, rfl⟩ := he
          obtain ⟨hInvS, hprS⟩ := store_inv st1 oid _ hInv1 hoid1
          refine ⟨hInvS, hle1, fun i q hi => ?_⟩
          have hne : i ≠ oid := by
            intro hcontra
            subst hcontra
            rw [hdata1] at hd
            rw [hd] at hi
            exact Option.noConfusion hi
          exact hprS i q hne (by rw [hdata1]; exact hi)
      | hdatetime x =>
        dsimp only at he
        cases hd : dget st1.data oid with
        | some q0 =>
          rw [hd] at he
          simp only [Option.some.injEq, Prod.mk.injEq] at he
          obtain ⟨-, rfl⟩ := he
          obtain ⟨hInvR, hleR, hprR⟩ := emitRefH_inv oid st1 hInv1
          exact ⟨hInvR, Nat.le_trans hle1 hleR,
            fun i q hi => hprR i q (by rw [hdata1]; exact hi)⟩
        | none =>
          rw [hd] at he
          simp only [Option.some.injEq, Prod.mk.injEq] at he
          obtain ⟨-, rfl⟩ := he
          obtain ⟨hInvS, hprS⟩ := store_inv st1 oid _ hInv1 hoid1
          refine ⟨hInvS, hle1, fun i q hi => ?_⟩
          have hne : i ≠ oid := by
            intro hcontra
            subst hcontra
            rw [hdata1] at hd
            rw [hd] at hi
            exact Option.noConfusion hi
          exact hprS i q hne (by rw [hdata1]; exact hi)

/-- Is this object a primitive (dispatched to `PrimitiveEncoder`)? -/
def HNode.isPrim : HNode → Bool
  | .hprim _ => true
  | _ => false

/-- C4: within one encode session, a reference-tracked object's full body
is recorded in the shared entry table at most once — every entry present
in the table is preserved unchanged by any further encoding step, and an
encounter of an object whose identifier (from the shared identity
provider) already has a table entry emits an `_ObjectReference` marker
payload carrying that identifier, leaving the recorded body in place. -/
theorem transcoder_c4 :
    ∀ (h : Heap) (fuel a : Nat) (st : EncStH) (p : Payload) (st' : EncStH),
      encodeH h fuel a st = some (p, st') → st.Inv →
      (∀ i q, dget st.data i = some q → dget st'.data i = some q) ∧
      (∀ i q node, dget st.ids a = some i → dget st.data i = some q →
        dget h a = some node → node.isPrim = false →
        p = .refObj objRefName i st.next ∧ dget st'.data i = some q) := by
  intro h fuel a st p st' he hInv
  refine ⟨(encodeH_pres h fuel a st p st' he hInv).2.2, ?_⟩
  intro i q node hids hdata hnode hnp
  cases fuel with
  | zero => exact absurd he (by simp [encodeH])
  | succ fuel =>
    unfold encodeH at he
    rw [hnode] at he
    dsimp only at he
    have hg : getId a st = (i, st) := by unfold getId; rw [hids]
    rw [hg] at he
    dsimp only at he
    have hlt : i < st.next := hInv.2 a i hids
    cases node with
    | hprim l => simp [HNode.isPrim] at hnp
    | hcoll k items =>
      rw [hdata] at he
      have hpair := Option.some.inj he
      have hp : Payload.refObj objRefName i st.next = p := congrArg Prod.fst hpair
      have hst : (emitRefH i st).2 = st' := congrArg Prod.snd hpair
      refine ⟨hp.symm, ?_⟩
      rw [← hst]
      show dget (dset st.data st.next (Payload.refObj objRefName i st.next)) i = some q
      rw [dget_dset_ne _ _ _ _ (by omega)]
      exact hdata
    | hdict es =>
      rw [hdata] at he
      have hpair := Option.some.inj he
      have hp : Payload.refObj objRefName i st.next = p := congrArg Prod.fst hpair
      have hst : (emitRefH i st).2 = st' := congrArg Prod.snd hpair
      refine ⟨hp.symm, ?_⟩
      rw [← hst]
      show dget (dset st.data st.next (Payload.refObj objRefName i st.next)) i = some q
      rw [dget_dset_ne _ _ _ _ (by omega)]
      exact hdata
    | henum ty member =>
      rw [hdata] at he
      have hpair := Option.some.inj he
      have hp : Payload.refObj objRefName i st.next = p := congrArg Prod.fst hpair
      have hst : (emitRefH i st).2 = st' := congrArg Prod.snd hpair
      refine ⟨hp.symm, ?_⟩
      rw [← hst]
      show dget (dset st.data st.next (Payload.refObj objRefName i st.next)) i = some q
      rw [dget_dset_ne _ _ _ _ (by omega)]
      exact hdata
    | hdatetime x =>
      rw [hdata] at he
      have hpair := Option.some.inj he
      have hp : Payload.refObj objRefName i st.next = p := congrArg Prod.fst hpair
      have hst : (emitRefH i st).2 = st' := congrArg Prod.snd hpair
      refine ⟨hp.symm, ?_⟩
      rw [← hst]
      show dget (dset st.data st.next (Payload.refObj objRefName i st.next)) i = some q
      rw [dget_dset_ne _ _ _ _ (by omega)]
      exact hdata

def heapW : Heap := [(0, .hcoll .clist [1, 1]), (1, .hcoll .clist [])]

def stW : EncStH := ⟨[(0, 0), (1, 1)], 2, [(1, .coll "list" [] 1)]⟩

def stW' : EncStH :=
  ⟨[(0, 0), (1, 1)], 3, [(1, .coll "list" [] 1), (2, .refObj objRefName 1 2)]⟩

theorem stW_inv : stW.Inv := by
  refine ⟨fun j hj => ?_, fun a i hi => ?_⟩
  · have h1 : (1 : Nat) ≠ j := by
      have : (2 : Nat) ≤ j := hj
      omega
    simp [stW, dget, h1]
  · by_cases h0 : (0 : Nat) = a
    · simp [stW, dget, ← h0] at hi
      simp [stW, ← hi]
    · by_cases h1 : (1 : Nat) = a
      · simp [stW, dget, h0, ← h1] at hi
        simp [stW, ← hi]
      · simp [stW, dget, h0, h1] at hi

theorem transcoder_c4_witness :
    (∀ i q, dget stW.data i = some q → dget stW'.data i = some q) ∧
    Payload.refObj objRefName 1 2 = Payload.refObj objRefName 1 stW.next ∧
    dget stW'.data 1 = some (.coll "list" [] 1) := by
  have hmain := transcoder_c4 heapW 5 1 stW (.refObj objRefName 1 2) stW' rfl stW_inv
  have hsecond := hmain.2 1 (.coll "list" [] 1) (.hcoll .clist []) rfl rfl rfl rfl
  exact ⟨hmain.1, hsecond.1, hsecond.2⟩

/-- The test scenario `{1234: X, 4321: X}` with `X = [7]` shared between
both dict values, laid out on a heap. -/
def heapShared : Heap :=
  [(0, .hdict [(1, 3), (2, 3)]), (1, .hprim (.i 1234)), (2, .hprim (.i 4321)),
   (3, .hcoll .clist [4]), (4, .hprim (.i 7))]

/-- What encoding `heapShared` produces: the second occurrence of `X` is an
`_ObjectReference` marker targeting `X`'s identifier 3. -/
def sharedPayload : Payload :=
  .kv "dict"
    [(.prim "int" (.i 1234), .coll "list" [.prim "int" (.i 7)] 3),
     (.prim "int" (.i 4321), .refObj objRefName 3 5)] 0

/-- C3: when a payload's identifier is already in the shared decoded-object
cache, `Decoder.decode` returns the cached instance without running the
handler body (the cache is returned unchanged — a handler invocation would
have grown it); this is also how `_ObjectReference` payloads resolve.
Concretely, decoding the encoding of `{1234: X, 4321: X}` constructs `X`
once (one full-body cache entry, at identifier 3) and the marker for the
second path resolves to the same instance, so both dict values are that
one instance. -/
theorem transcoder_c3 :
    (∀ (env : TrEnv) (p : Payload) (c : Cache) (oid : Nat) (v : Value) (rt : RTy),
      p.objId = some oid → resolveTy env p.tyName = some rt →
      usesCache rt = true → dget c oid = some v →
      decodeV env p c = .ok (v, c)) ∧
    (encodeH heapShared 10 0 initEncStH).map Prod.fst = some sharedPayload ∧
    decodeV ⟨[], []⟩ sharedPayload [] =
      .ok (.vdict [(.vint 1234, .vlist [.vint 7]), (.vint 4321, .vlist [.vint 7])],
        [(3, .vlist [.vint 7]), (5, .vlist [.vint 7]),
         (0, .vdict [(.vint 1234, .vlist [.vint 7]),
                     (.vint 4321, .vlist [.vint 7])])]) := by
  refine ⟨?_, rfl, rfl⟩
  intro env p c oid v rt hoid hres hc hget
  cases p with
  | prim ty l => simp [Payload.objId] at hoid
  | coll ty items oid' =>
    obtain rfl : oid' = oid := by simpa [Payload.objId] using hoid
    simp only [Payload.tyName] at hres
    unfold decodeV
    rw [hres]
    cases rt <;>
      (simp [hget]; first | exact hc | exact Bool.noConfusion hc)
  | kv ty pairs oid' =>
    obtain rfl : oid' = oid := by simpa [Payload.objId] using hoid
    simp only [Payload.tyName] at hres
    unfold decodeV
    rw [hres]
    cases rt <;>
      (simp [hget]; first | exact hc | exact Bool.noConfusion hc)
  | nmObj ty member oid' =>
    obtain rfl : oid' = oid := by simpa [Payload.objId] using hoid
    simp only [Payload.tyName] at hres
    unfold decodeV
    rw [hres]
    cases rt <;>
      (simp [hget]; first | exact hc | exact Bool.noConfusion hc)
  | numObj ty x oid' =>
    obtain rfl : oid' = oid := by simpa [Payload.objId] using hoid
    simp only [Payload.tyName] at hres
    unfold decodeV
    rw [hres]
    cases rt <;>
      (simp [hget]; first | exact hc | exact Bool.noConfusion hc)
  | refObj ty target oid' =>
    obtain rfl : oid' = oid := by simpa [Payload.objId] using hoid
    simp only [Payload.tyName] at hres
    unfold decodeV
    rw [hres]
    cases rt <;>
      (simp [hget]; first | exact hc | exact Bool.noConfusion hc)

theorem transcoder_c3_witness :
    decodeV ⟨[], []⟩ (.refObj objRefName 3 5) [(5, .vlist [.vint 7])] =
      .ok (.vlist [.vint 7], [(5, .vlist [.vint 7])]) :=
  transcoder_c3.1 ⟨[], []⟩ (.refObj objRefName 3 5)
    [(5, .vlist [.vint 7])] 5 (.vlist [.vint 7]) .robjref rfl rfl rfl rfl

/-! ## Claim C1: round-trip on freshly built values -/

/-- Entry-table slots at and beyond the allocation counter are free. -/
def dataFree (st : EncSt) : Prop :=
  ∀ j, st.next ≤ j → dget st.data j = none

theorem dset_eq_append {κ α : Type} [DecidableEq κ] (l : List (κ × α)) (k : κ) (v : α)
    (h : k ∉ l.map Prod.fst) : dset l k v = l ++ [(k, v)] := by
  induction l with
  | nil => rfl
  | cons hd t ih =>
    obtain ⟨k', v'⟩ := hd
    simp only [List.map_cons, List.mem_cons, not_or] at h
    simp [dset, Ne.symm h.1, ih h.2]

mutual

theorem encodeV_state (v : Value) :
    ∀ (st : EncSt) (p : Payload) (st' : EncSt),
      encodeV v st = (p, st') → dataFree st →
      st.next < st'.next ∧ dataFree st' := by
  intro st p st' he hdf
  have hnone : dget st.data st.next = none := hdf _ (Nat.le_refl _)
  cases v with
  | vint n =>
    unfold encodeV at he
    obtain ⟨-, rfl⟩ : _ ∧ ({ st with next := st.next + 1 } : EncSt) = st' := by
      simpa using he
    exact ⟨Nat.lt_succ_self _, fun j hj => hdf j (Nat.le_trans (Nat.le_succ _) hj)⟩
  | vstr x =>
    unfold encodeV at he
    obtain ⟨-, rfl⟩ : _ ∧ ({ st with next := st.next + 1 } : EncSt) = st' := by
      simpa using he
    exact ⟨Nat.lt_succ_self _, fun j hj => hdf j (Nat.le_trans (Nat.le_succ _) hj)⟩
  | vbool x =>
    unfold encodeV at he
    obtain ⟨-, rfl⟩ : _ ∧ ({ st with next := st.next + 1 } : EncSt) = st' := by
      simpa using he
    exact ⟨Nat.lt_succ_self _, fun j hj => hdf j (Nat.le_trans (Nat.le_succ _) hj)⟩
  | vfloat x =>
    unfold encodeV at he
    obtain ⟨-, rfl⟩ : _ ∧ ({ st with next := st.next + 1 } : EncSt) = st' := by
      simpa using he
    exact ⟨Nat.lt_succ_self _, fun j hj => hdf j (Nat.le_trans (Nat.le_succ _) hj)⟩
  | vnone =>
    unfold encodeV at he
    obtain ⟨-, rfl⟩ : _ ∧ ({ st with next := st.next + 1 } : EncSt) = st' := by
      simpa using he
    exact ⟨Nat.lt_succ_self _, fun j hj => hdf j (Nat.le_trans (Nat.le_succ _) hj)⟩
  | vtype fqn =>
    unfold encodeV at he
    obtain ⟨-, rfl⟩ : _ ∧ ({ st with next := st.next + 1 } : EncSt) = st' := by
      simpa using he
    exact ⟨Nat.lt_succ_self _, fun j hj => hdf j (Nat.le_trans (Nat.le_succ _) hj)⟩
  | vfunc fqn =>
    unfold encodeV at he
    obtain ⟨-, rfl⟩ : _ ∧ ({ st with next := st.next + 1 } : EncSt) = st' := by
      simpa using he
    exact ⟨Nat.lt_succ_self _, fun j hj => hdf j (Nat.le_trans (Nat.le_succ _) hj)⟩
  | vlist xs =>
    unfold encodeV at he
    dsimp only at he
    rw [hnone] at he
    rcases hl : encodeVList xs ({ st with next := st.next + 1 }) with ⟨ps, st2⟩
    rw [hl] at he
    simp only [Prod.mk.injEq] at he
    obtain ⟨-, rfl⟩ := he
    have hdf1 : dataFree ({ st with next := st.next + 1 }) := fun j hj =>
      hdf j (Nat.le_trans (Nat.le_succ _) hj)
    obtain ⟨hle, hdf2⟩ := encodeVList_state xs _ ps st2 hl hdf1
    refine ⟨Nat.lt_of_lt_of_le (Nat.lt_succ_self _) hle, fun j hj => ?_⟩
    have hne : st.next ≠ j := by
      simp only at hj
      have : st.next + 1 ≤ st2.next := hle
      omega
    simp only
    rw [dget_dset_ne _ _ _ _ hne]
    exact hdf2 j hj
  | vtuple xs =>
    unfold encodeV at he
    dsimp only at he
    rw [hnone] at he
    rcases hl : encodeVList xs ({ st with next := st.next + 1 }) with ⟨ps, st2⟩
    rw [hl] at he
    simp only [Prod.mk.injEq] at he
    obtain ⟨-, rfl⟩ := he
    have hdf1 : dataFree ({ st with next := st.next + 1 }) := fun j hj =>
      hdf j (Nat.le_trans (Nat.le_succ _) hj)
    obtain ⟨hle, hdf2⟩ := encodeVList_state xs _ ps st2 hl hdf1
    refine ⟨Nat.lt_of_lt_of_le (Nat.lt_succ_self _) hle, fun j hj => ?_⟩
    have hne : st.next ≠ j := by
      simp only at hj
      have : st.next + 1 ≤ st2.next := hle
      omega
    simp only
    rw [dget_dset_ne _ _ _ _ hne]
    exact hdf2 j hj
  | vset xs =>
    unfold encodeV at he
    dsimp only at he
    rw [hnone] at he
    rcases hl : encodeVList xs ({ st with next := st.next + 1 }) with ⟨ps, st2⟩
    rw [hl] at he
    simp only [Prod.mk.injEq] at he
    obtain ⟨-, rfl⟩ := he
    have hdf1 : dataFree ({ st with next := st.next + 1 }) := fun j hj =>
      hdf j (Nat.le_trans (Nat.le_succ _) hj)
    obtain ⟨hle, hdf2⟩ := encodeVList_state xs _ ps st2 hl hdf1
    refine ⟨Nat.lt_of_lt_of_le (Nat.lt_succ_self _) hle, fun j hj => ?_⟩
    have hne : st.next ≠ j := by
      simp only at hj
      have : st.next + 1 ≤ st2.next := hle
      omega
    simp only
    rw [dget_dset_ne _ _ _ _ hne]
    exact hdf2 j hj
  | vdict es =>
    unfold encodeV at he
    dsimp only at he
    rw [hnone] at he
    rcases hf : encodeVFirsts es ({ st with next := st.next + 1 }) with ⟨kps, st2⟩
    rw [hf] at he
    dsimp only at he
    rcases hs : encodeVSeconds es st2 with ⟨vps, st3⟩
    rw [hs] at he
    simp only [Prod.mk.injEq] at he
    obtain ⟨-, rfl⟩ := he
    have hdf1 : dataFree ({ st with next := st.next + 1 }) := fun j hj =>
      hdf j (Nat.le_trans (Nat.le_succ _) hj)
    obtain ⟨hle2, hdf2⟩ := encodeVFirsts_state es _ kps st2 hf hdf1
    obtain ⟨hle3, hdf3⟩ := encodeVSeconds_state es st2 vps st3 hs hdf2
    refine ⟨Nat.lt_of_lt_of_le (Nat.lt_succ_self _) (Nat.le_trans hle2 hle3),
      fun j hj => ?_⟩
    have hne : st.next ≠ j := by
      simp only at hj
      have h1 : st.next + 1 ≤ st2.next := hle2
      have h2 : st2.next ≤ st3.next := hle3
      omega
    simp only
    rw [dget_dset_ne _ _ _ _ hne]
    exact hdf3 j hj
  | venum ty member =>
    unfold encodeV at he
    dsimp only at he
    rw [hnone] at he
    simp only [Prod.mk.injEq] at he
    obtain ⟨-, rfl⟩ := he
    refine ⟨Nat.lt_succ_self _, fun j hj => ?_⟩
    have hne : st.next ≠ j := by
      simp only at hj
      omega
    simp only
    rw [dget_dset_ne _ _ _ _ hne]
    exact hdf j (by simp only at hj; omega)
  | vdatetime ts =>
    unfold encodeV at he
    dsimp only at he
    rw [hnone] at he
    simp only [Prod.mk.injEq] at he
    obtain ⟨-, rfl⟩ := he
    refine ⟨Nat.lt_succ_self _, fun j hj => ?_⟩
    have hne : st.next ≠ j := by
      simp only at hj
      omega
    simp only
    rw [dget_dset_ne _ _ _ _ hne]
    exact hdf j (by simp only at hj; omega)

theorem encodeVList_state (xs : List Value) :
    ∀ (st : EncSt) (ps : List Payload) (st' : EncSt),
      encodeVList xs st = (ps, st') → dataFree st →
      st.next ≤ st'.next ∧ dataFree st' := by
  intro st ps st' he hdf
  cases xs with
  | nil =>
    unfold encodeVList at he
    simp only [Prod.mk.injEq] at he
    obtain ⟨-, rfl⟩ := he
    exact ⟨Nat.le_refl _, hdf⟩
  | cons x xt =>
    unfold encodeVList at he
    rcases hx : encodeV x st with ⟨p1, s1⟩
    rw [hx] at he
    dsimp only at he
    rcases hxt : encodeVList xt s1 with ⟨ps2, s2⟩
    rw [hxt] at he
    simp only [Prod.mk.injEq] at he
    obtain ⟨-, rfl⟩ := he
    obtain ⟨hlt1, hdf1⟩ := encodeV_state x st p1 s1 hx hdf
    obtain ⟨hle2, hdf2⟩ := encodeVList_state xt s1 ps2 s2 hxt hdf1
    exact ⟨Nat.le_trans (Nat.le_of_lt hlt1) hle2, hdf2⟩

theorem encodeVFirsts_state (es : List (Value × Value)) :
    ∀ (st : EncSt) (ps : List Payload) (st' : EncSt),
      encodeVFirsts es st = (ps, st') → dataFree st →
      st.next ≤ st'.next ∧ dataFree st' := by
  intro st ps st' he hdf
  cases es with
  | nil =>
    unfold encodeVFirsts at he
    simp only [Prod.mk.injEq] at he
    obtain ⟨-, rfl⟩ := he
    exact ⟨Nat.le_refl _, hdf⟩
  | cons kv es =>
    obtain ⟨k, v⟩ := kv
    unfold encodeVFirsts at he
    rcases hx : encodeV k st with ⟨p1, s1⟩
    rw [hx] at he
    dsimp only at he
    rcases hxt : encodeVFirsts es s1 with ⟨ps2, s2⟩
    rw [hxt] at he
    simp only [Prod.mk.injEq] at he
    obtain ⟨-, rfl⟩ := he
    obtain ⟨hlt1, hdf1⟩ := encodeV_state k st p1 s1 hx hdf
    obtain ⟨hle2, hdf2⟩ := encodeVFirsts_state es s1 ps2 s2 hxt hdf1
    exact ⟨Nat.le_trans (Nat.le_of_lt hlt1) hle2, hdf2⟩

theorem encodeVSeconds_state (es : List (Value × Value)) :
    ∀ (st : EncSt) (ps : List Payload) (st' : EncSt),
      encodeVSeconds es st = (ps, st') → dataFree st →
      st.next ≤ st'.next ∧ dataFree st' := by
  intro st ps st' he hdf
  cases es with
  | nil =>
    unfold encodeVSeconds at he
    simp only [Prod.mk.injEq] at he
    obtain ⟨-, rfl⟩ := he
    exact ⟨Nat.le_refl _, hdf⟩
  | cons kv es =>
    obtain ⟨k, v⟩ := kv
    unfold encodeVSeconds at he
    rcases hx : encodeV v st with ⟨p1, s1⟩
    rw [hx] at he
    dsimp only at he
    rcases hxt : encodeVSeconds es s1 with ⟨ps2, s2⟩
    rw [hxt] at he
    simp only [Prod.mk.injEq] at he
    obtain ⟨-, rfl⟩ := he
    obtain ⟨hlt1, hdf1⟩ := encodeV_state v st p1 s1 hx hdf
    obtain ⟨hle2, hdf2⟩ := encodeVSeconds_state es s1 ps2 s2 hxt hdf1
    exact ⟨Nat.le_trans (Nat.le_of_lt hlt1) hle2, hdf2⟩

end

theorem dget_none_of_avoid {c : Cache} {oid lo hi : Nat}
    (hav : ∀ k ∈ c.map Prod.fst, k < lo ∨ hi ≤ k) (h1 : lo ≤ oid) (h2 : oid < hi) :
    dget c oid = none := by
  apply dget_eq_none_of_key_not_mem
  intro hmem
  rcases hav oid hmem with h | h <;> omega

theorem key_not_mem_of_avoid {c : Cache} {oid lo hi : Nat}
    (hav : ∀ k ∈ c.map Prod.fst, k < lo ∨ hi ≤ k) (h1 : lo ≤ oid) (h2 : oid < hi) :
    oid ∉ c.map Prod.fst := by
  intro hmem
  rcases hav oid hmem with h | h <;> omega

mutual

/-- Round-trip, single value: decoding the payload of a well-formed fresh
value with any cache whose keys avoid the payload's identifier range
returns the value and extends the cache only inside that range. -/
theorem rtV (env : TrEnv) (v : Value) :
    ∀ (st : EncSt) (p : Payload) (st' : EncSt) (c : Cache),
      encodeV v st = (p, st') →
      Value.wf env v = true →
      dataFree st →
      (∀ k ∈ c.map Prod.fst, k < st.next ∨ st'.next ≤ k) →
      ∃ d, decodeV env p c = .ok (v, c ++ d) ∧
        ∀ k ∈ d.map Prod.fst, st.next ≤ k ∧ k < st'.next := by
  intro st p st' c he hwf hdf hav
  have hnone : dget st.data st.next = none := hdf _ (Nat.le_refl _)
  cases v with
  | vint n =>
    unfold encodeV at he
    obtain ⟨rfl, -⟩ : Payload.prim "int" (.i n) = p ∧ _ = st' := by simpa using he
    have hr : resolveTy env "int" = some .rint := rfl
    exact ⟨[], by simp [decodeV, hr], by simp⟩
  | vstr x =>
    unfold encodeV at he
    obtain ⟨rfl, -⟩ : Payload.prim "str" (.s x) = p ∧ _ = st' := by simpa using he
    have hr : resolveTy env "str" = some .rstr := rfl
    exact ⟨[], by simp [decodeV, hr], by simp⟩
  | vbool x =>
    unfold encodeV at he
    obtain ⟨rfl, -⟩ : Payload.prim "bool" (.b x) = p ∧ _ = st' := by simpa using he
    have hr : resolveTy env "bool" = some .rbool := rfl
    exact ⟨[], by simp [decodeV, hr], by simp⟩
  | vfloat x =>
    unfold encodeV at he
    obtain ⟨rfl, -⟩ : Payload.prim "float" (.f x) = p ∧ _ = st' := by simpa using he
    have hr : resolveTy env "float" = some .rfloat := rfl
    exact ⟨[], by simp [decodeV, hr], by simp⟩
  | vnone =>
    unfold encodeV at he
    obtain ⟨rfl, -⟩ : Payload.prim "NoneType" .nil = p ∧ _ = st' := by simpa using he
    have hr : resolveTy env "NoneType" = some .rnone := rfl
    exact ⟨[], by simp [decodeV, hr], by simp⟩
  | vtype fqn =>
    unfold encodeV at he
    obtain ⟨rfl, -⟩ : Payload.prim "type" (.s fqn) = p ∧ _ = st' := by simpa using he
    have hres : (resolveTy env fqn).isSome = true := by simpa [Value.wf] using hwf
    have hr : resolveTy env "type" = some .rtype := rfl
    exact ⟨[], by simp [decodeV, hr, hres], by simp⟩
  | vfunc fqn =>
    unfold encodeV at he
    obtain ⟨rfl, -⟩ : Payload.prim "function" (.s fqn) = p ∧ _ = st' := by simpa using he
    have hres : (resolveTy env fqn).isSome = true := by simpa [Value.wf] using hwf
    have hr : resolveTy env "function" = some .rfunction := rfl
    exact ⟨[], by simp [decodeV, hr, hres], by simp⟩
  | vlist xs =>
    unfold encodeV at he
    dsimp only at he
    rw [hnone] at he
    rcases hl : encodeVList xs ({ st with next := st.next + 1 }) with ⟨ps, st2⟩
    rw [hl] at he
    simp only [Prod.mk.injEq] at he
    obtain ⟨rfl, rfl⟩ := he
    have hwfl : Value.wfList env xs = true := by simpa [Value.wf] using hwf
    have hdf1 : dataFree ({ st with next := st.next + 1 }) := fun j hj =>
      hdf j (Nat.le_trans (Nat.le_succ _) hj)
    obtain ⟨hle2, -⟩ := encodeVList_state xs _ ps st2 hl hdf1
    have hle2' : st.next + 1 ≤ st2.next := hle2
    have hav1 : ∀ k ∈ c.map Prod.fst,
        k < ({ st with next := st.next + 1 } : EncSt).next ∨ st2.next ≤ k := by
      intro k hk
      rcases hav k hk with h | h
      · exact Or.inl (by simp only; omega)
      · exact Or.inr h
    obtain ⟨d, hdec, hb⟩ := rtL env xs _ ps st2 c hl hwfl hdf1 hav1
    have hcnone : dget c st.next = none :=
      dget_none_of_avoid hav (Nat.le_refl _) (by simp only; omega)
    have hnotmem : st.next ∉ (c ++ d).map Prod.fst := by
      simp only [List.map_append, List.mem_append]
      rintro (hmem | hmem)
      · exact key_not_mem_of_avoid hav (Nat.le_refl _) (by simp only; omega) hmem
      · obtain ⟨hk1, -⟩ := hb _ hmem
        have : st.next + 1 ≤ st.next := hk1
        omega
    refine ⟨d ++ [(st.next, Value.vlist xs)], ?_, ?_⟩
    · show decodeV env (.coll "list" ps st.next) c = _
      have hres : resolveTy env "list" = some .rlist := rfl
      simp only [decodeV, hres, hcnone, hdec, usesCache]
      rw [dset_eq_append _ _ _ hnotmem]
      simp [List.append_assoc]
    · intro k hk
      simp only [List.map_append, List.mem_append, List.map_cons, List.map_nil,
        List.mem_singleton] at hk
      rcases hk with hk | hk
      · obtain ⟨h1, h2⟩ := hb _ hk
        have h1' : st.next + 1 ≤ k := h1
        have h2' : k < st2.next := h2
        constructor
        · omega
        · simp only
          omega
      · subst hk
        constructor
        · exact Nat.le_refl _
        · simp only
          omega
  | vtuple xs =>
    unfold encodeV at he
    dsimp only at he
    rw [hnone] at he
    rcases hl : encodeVList xs ({ st with next := st.next + 1 }) with ⟨ps, st2⟩
    rw [hl] at he
    simp only [Prod.mk.injEq] at he
    obtain ⟨rfl, rfl⟩ := he
    have hwfl : Value.wfList env xs = true := by simpa [Value.wf] using hwf
    have hdf1 : dataFree ({ st with next := st.next + 1 }) := fun j hj =>
      hdf j (Nat.le_trans (Nat.le_succ _) hj)
    obtain ⟨hle2, -⟩ := encodeVList_state xs _ ps st2 hl hdf1
    have hle2' : st.next + 1 ≤ st2.next := hle2
    have hav1 : ∀ k ∈ c.map Prod.fst,
        k < ({ st with next := st.next + 1 } : EncSt).next ∨ st2.next ≤ k := by
      intro k hk
      rcases hav k hk with h | h
      · exact Or.inl (by simp only; omega)
      · exact Or.inr h
    obtain ⟨d, hdec, hb⟩ := rtL env xs _ ps st2 c hl hwfl hdf1 hav1
    have hcnone : dget c st.next = none :=
      dget_none_of_avoid hav (Nat.le_refl _) (by simp only; omega)
    have hnotmem : st.next ∉ (c ++ d).map Prod.fst := by
      simp only [List.map_append, List.mem_append]
      rintro (hmem | hmem)
      · exact key_not_mem_of_avoid hav (Nat.le_refl _) (by simp only; omega) hmem
      · obtain ⟨hk1, -⟩ := hb _ hmem
        have : st.next + 1 ≤ st.next := hk1
        omega
    refine ⟨d ++ [(st.next, Value.vtuple xs)], ?_, ?_⟩
    · show decodeV env (.coll "tuple" ps st.next) c = _
      have hres : resolveTy env "tuple" = some .rtuple := rfl
      simp only [decodeV, hres, hcnone, hdec, usesCache]
      rw [dset_eq_append _ _ _ hnotmem]
      simp [List.append_assoc]
    · intro k hk
      simp only [List.map_append, List.mem_append, List.map_cons, List.map_nil,
        List.mem_singleton] at hk
      rcases hk with hk | hk
      · obtain ⟨h1, h2⟩ := hb _ hk
        have h1' : st.next + 1 ≤ k := h1
        have h2' : k < st2.next := h2
        constructor
        · omega
        · simp only
          omega
      · subst hk
        constructor
        · exact Nat.le_refl _
        · simp only
          omega
  | vset xs =>
    unfold encodeV at he
    dsimp only at he
    rw [hnone] at he
    rcases hl : encodeVList xs ({ st with next := st.next + 1 }) with ⟨ps, st2⟩
    rw [hl] at he
    simp only [Prod.mk.injEq] at he
    obtain ⟨rfl, rfl⟩ := he
    have hwfl : Value.wfList env xs = true := by simpa [Value.wf] using hwf
    have hdf1 : dataFree ({ st with next := st.next + 1 }) := fun j hj =>
      hdf j (Nat.le_trans (Nat.le_succ _) hj)
    obtain ⟨hle2, -⟩ := encodeVList_state xs _ ps st2 hl hdf1
    have hle2' : st.next + 1 ≤ st2.next := hle2
    have hav1 : ∀ k ∈ c.map Prod.fst,
        k < ({ st with next := st.next + 1 } : EncSt).next ∨ st2.next ≤ k := by
      intro k hk
      rcases hav k hk with h | h
      · exact Or.inl (by simp only; omega)
      · exact Or.inr h
    obtain ⟨d, hdec, hb⟩ := rtL env xs _ ps st2 c hl hwfl hdf1 hav1
    have hcnone : dget c st.next = none :=
      dget_none_of_avoid hav (Nat.le_refl _) (by simp only; omega)
    have hnotmem : st.next ∉ (c ++ d).map Prod.fst := by
      simp only [List.map_append, List.mem_append]
      rintro (hmem | hmem)
      · exact key_not_mem_of_avoid hav (Nat.le_refl _) (by simp only; omega) hmem
      · obtain ⟨hk1, -⟩ := hb _ hmem
        have : st.next + 1 ≤ st.next := hk1
        omega
    refine ⟨d ++ [(st.next, Value.vset xs)], ?_, ?_⟩
    · show decodeV env (.coll "set" ps st.next) c = _
      have hres : resolveTy env "set" = some .rset := rfl
      simp only [decodeV, hres, hcnone, hdec, usesCache]
      rw [dset_eq_append _ _ _ hnotmem]
      simp [List.append_assoc]
    · intro k hk
      simp only [List.map_append, List.mem_append, List.map_cons, List.map_nil,
        List.mem_singleton] at hk
      rcases hk with hk | hk
      · obtain ⟨h1, h2⟩ := hb _ hk
        have h1' : st.next + 1 ≤ k := h1
        have h2' : k < st2.next := h2
        constructor
        · omega
        · simp only
          omega
      · subst hk
        constructor
        · exact Nat.le_refl _
        · simp only
          omega
  | vdict es =>
    unfold encodeV at he
    dsimp only at he
    rw [hnone] at he
    rcases hf : encodeVFirsts es ({ st with next := st.next + 1 }) with ⟨kps, st2⟩
    rw [hf] at he
    dsimp only at he
    rcases hs : encodeVSeconds es st2 with ⟨vps, st3⟩
    rw [hs] at he
    simp only [Prod.mk.injEq] at he
    obtain ⟨rfl, rfl⟩ := he
    have hwfp : Value.wfPairs env es = true := by simpa [Value.wf] using hwf
    have hdf1 : dataFree ({ st with next := st.next + 1 }) := fun j hj =>
      hdf j (Nat.le_trans (Nat.le_succ _) hj)
    obtain ⟨hle2, hdf2⟩ := encodeVFirsts_state es _ kps st2 hf hdf1
    obtain ⟨hle3, -⟩ := encodeVSeconds_state es st2 vps st3 hs hdf2
    have hle2' : st.next + 1 ≤ st2.next := hle2
    have hav1 : ∀ k ∈ c.map Prod.fst,
        (k < ({ st with next := st.next + 1 } : EncSt).next ∨ st2.next ≤ k) ∧
        (k < st2.next ∨ st3.next ≤ k) := by
      intro k hk
      rcases hav k hk with h | h
      · exact ⟨Or.inl (by simp only; omega), Or.inl (by omega)⟩
      · exact ⟨Or.inr (by simp only at h ⊢; omega), Or.inr (by simp only at h; omega)⟩
    obtain ⟨d, hdec, hb⟩ :=
      rtP env es _ kps st2 st2 vps st3 c hf hs hwfp hdf1 hdf2 (Nat.le_refl _) hav1
    have hcnone : dget c st.next = none :=
      dget_none_of_avoid hav (Nat.le_refl _) (by simp only; omega)
    have hnotmem : st.next ∉ (c ++ d).map Prod.fst := by
      simp only [List.map_append, List.mem_append]
      rintro (hmem | hmem)
      · exact key_not_mem_of_avoid hav (Nat.le_refl _) (by simp only; omega) hmem
      · rcases hb _ hmem with ⟨h1, -⟩ | ⟨h1, -⟩
        · have : st.next + 1 ≤ st.next := h1
          omega
        · omega
    refine ⟨d ++ [(st.next, Value.vdict es)], ?_, ?_⟩
    · show decodeV env (.kv "dict" (kps.zip vps) st.next) c = _
      have hres : resolveTy env "dict" = some .rdict := rfl
      simp only [decodeV, hres, hcnone, hdec, usesCache]
      rw [dset_eq_append _ _ _ hnotmem]
      simp [List.append_assoc]
    · intro k hk
      simp only [List.map_append, List.mem_append, List.map_cons, List.map_nil,
        List.mem_singleton] at hk
      rcases hk with hk | hk
      · rcases hb _ hk with ⟨h1, h2⟩ | ⟨h1, h2⟩
        · have h1' : st.next + 1 ≤ k := h1
          constructor
          · omega
          · simp only
            omega
        · constructor
          · omega
          · simp only
            omega
      · subst hk
        constructor
        · exact Nat.le_refl _
        · simp only
          omega
  | venum ty member =>
    unfold encodeV at he
    dsimp only at he
    rw [hnone] at he
    simp only [Prod.mk.injEq] at he
    obtain ⟨rfl, rfl⟩ := he
    simp only [Value.wf, Bool.and_eq_true] at hwf
    obtain ⟨hb0, hmem⟩ := hwf
    have hb0' : builtinRTy ty = none := Option.isNone_iff_eq_none.mp hb0
    cases hm : dget env.enums ty with
    | none => rw [hm] at hmem; simp at hmem
    | some ms =>
      rw [hm] at hmem
      simp only at hmem
      have hres : resolveTy env ty = some (.renum ms) := by
        unfold resolveTy
        rw [hb0', hm]
      have hcnone : dget c st.next = none :=
        dget_none_of_avoid hav (Nat.le_refl _) (by simp only; omega)
      have hnotmem : st.next ∉ c.map Prod.fst :=
        key_not_mem_of_avoid hav (Nat.le_refl _) (by simp only; omega)
      refine ⟨[(st.next, Value.venum ty member)], ?_, ?_⟩
      · show decodeV env (.nmObj ty member st.next) c = _
        simp only [decodeV, hres, hcnone, hmem, usesCache, if_true]
        rw [dset_eq_append _ _ _ hnotmem]
      · intro k hk
        simp only [List.map_cons, List.map_nil, List.mem_singleton] at hk
        subst hk
        exact ⟨Nat.le_refl _, by simp only; omega⟩
  | vdatetime ts =>
    unfold encodeV at he
    dsimp only at he
    rw [hnone] at he
    simp only [Prod.mk.injEq] at he
    obtain ⟨rfl, rfl⟩ := he
    have hres : resolveTy env "datetime.datetime" = some .rdatetime := rfl
    have hcnone : dget c st.next = none :=
      dget_none_of_avoid hav (Nat.le_refl _) (by simp only; omega)
    have hnotmem : st.next ∉ c.map Prod.fst :=
      key_not_mem_of_avoid hav (Nat.le_refl _) (by simp only; omega)
    refine ⟨[(st.next, Value.vdatetime ts)], ?_, ?_⟩
    · show decodeV env (.numObj "datetime.datetime" ts st.next) c = _
      simp only [decodeV, hres, hcnone, usesCache]
      rw [dset_eq_append _ _ _ hnotmem]
      simp
    · intro k hk
      simp only [List.map_cons, List.map_nil, List.mem_singleton] at hk
      subst hk
      exact ⟨Nat.le_refl _, by simp only; omega⟩

/-- Round-trip, member lists of a collection. -/
theorem rtL (env : TrEnv) (xs : List Value) :
    ∀ (st : EncSt) (ps : List Payload) (st' : EncSt) (c : Cache),
      encodeVList xs st = (ps, st') →
      Value.wfList env xs = true →
      dataFree st →
      (∀ k ∈ c.map Prod.fst, k < st.next ∨ st'.next ≤ k) →
      ∃ d, decodeList env ps c = .ok (xs, c ++ d) ∧
        ∀ k ∈ d.map Prod.fst, st.next ≤ k ∧ k < st'.next := by
  intro st ps st' c he hwf hdf hav
  cases xs with
  | nil =>
    unfold encodeVList at he
    simp only [Prod.mk.injEq] at he
    obtain ⟨rfl, rfl⟩ := he
    exact ⟨[], by simp [decodeList], by simp⟩
  | cons x xt =>
    unfold encodeVList at he
    rcases hx : encodeV x st with ⟨p1, s1⟩
    rw [hx] at he
    dsimp only at he
    rcases hxt : encodeVList xt s1 with ⟨ps2, s2⟩
    rw [hxt] at he
    simp only [Prod.mk.injEq] at he
    obtain ⟨rfl, rfl⟩ := he
    simp only [Value.wfList, Bool.and_eq_true] at hwf
    obtain ⟨hwfx, hwfxt⟩ := hwf
    obtain ⟨hlt1, hdf1⟩ := encodeV_state x st p1 s1 hx hdf
    obtain ⟨hle2, -⟩ := encodeVList_state xt s1 ps2 s2 hxt hdf1
    have hav1 : ∀ k ∈ c.map Prod.fst, k < st.next ∨ s1.next ≤ k := by
      intro k hk
      rcases hav k hk with h | h
      · exact Or.inl h
      · exact Or.inr (by omega)
    obtain ⟨d1, hdec1, hb1⟩ := rtV env x st p1 s1 c hx hwfx hdf hav1
    have hav2 : ∀ k ∈ (c ++ d1).map Prod.fst, k < s1.next ∨ s2.next ≤ k := by
      intro k hk
      simp only [List.map_append, List.mem_append] at hk
      rcases hk with hk | hk
      · rcases hav k hk with h | h
        · exact Or.inl (by omega)
        · exact Or.inr h
      · obtain ⟨h1, h2⟩ := hb1 _ hk
        exact Or.inl h2
    obtain ⟨d2, hdec2, hb2⟩ := rtL env xt s1 ps2 s2 (c ++ d1) hxt hwfxt hdf1 hav2
    refine ⟨d1 ++ d2, ?_, ?_⟩
    · show decodeList env (p1 :: ps2) c = _
      simp only [decodeList, hdec1, hdec2, List.append_assoc]
    · intro k hk
      simp only [List.map_append, List.mem_append] at hk
      rcases hk with hk | hk
      · obtain ⟨h1, h2⟩ := hb1 _ hk
        exact ⟨h1, by omega⟩
      · obtain ⟨h1, h2⟩ := hb2 _ hk
        exact ⟨by omega, h2⟩

/-- Round-trip, dict items: keys are all encoded first (from `stA`), then
all values (from `stB`); decode interleaves key/value per pair. -/
theorem rtP (env : TrEnv) (es : List (Value × Value)) :
    ∀ (stA : EncSt) (kps : List Payload) (stA' : EncSt) (stB : EncSt)
      (vps : List Payload) (stB' : EncSt) (c : Cache),
      encodeVFirsts es stA = (kps, stA') →
      encodeVSeconds es stB = (vps, stB') →
      Value.wfPairs env es = true →
      dataFree stA →
      dataFree stB →
      stA'.next ≤ stB.next →
      (∀ k ∈ c.map Prod.fst,
        (k < stA.next ∨ stA'.next ≤ k) ∧ (k < stB.next ∨ stB'.next ≤ k)) →
      ∃ d, decodePairs env (kps.zip vps) c = .ok (es, c ++ d) ∧
        ∀ k ∈ d.map Prod.fst,
          (stA.next ≤ k ∧ k < stA'.next) ∨ (stB.next ≤ k ∧ k < stB'.next) := by
  intro stA kps stA' stB vps stB' c heA heB hwf hdfA hdfB hAB hav
  cases es with
  | nil =>
    unfold encodeVFirsts at heA
    unfold encodeVSeconds at heB
    simp only [Prod.mk.injEq] at heA heB
    obtain ⟨rfl, rfl⟩ := heA
    obtain ⟨rfl, rfl⟩ := heB
    exact ⟨[], by simp [decodePairs, List.zip], by simp⟩
  | cons kv rest =>
    obtain ⟨kx, vx⟩ := kv
    unfold encodeVFirsts at heA
    rcases hk1 : encodeV kx stA with ⟨kp1, sk1⟩
    rw [hk1] at heA
    dsimp only at heA
    rcases hkr : encodeVFirsts rest sk1 with ⟨kps2, sk2⟩
    rw [hkr] at heA
    simp only [Prod.mk.injEq] at heA
    obtain ⟨rfl, rfl⟩ := heA
    unfold encodeVSeconds at heB
    rcases hv1 : encodeV vx stB with ⟨vp1, sv1⟩
    rw [hv1] at heB
    dsimp only at heB
    rcases hvr : encodeVSeconds rest sv1 with ⟨vps2, sv2⟩
    rw [hvr] at heB
    simp only [Prod.mk.injEq] at heB
    obtain ⟨rfl, rfl⟩ := heB
    simp only [Value.wfPairs, Bool.and_eq_true] at hwf
    obtain ⟨⟨hwfk, hwfv⟩, hwfr⟩ := hwf
    obtain ⟨hltk, hdfk1⟩ := encodeV_state kx stA kp1 sk1 hk1 hdfA
    obtain ⟨hlek2, -⟩ := encodeVFirsts_state rest sk1 kps2 sk2 hkr hdfk1
    obtain ⟨hltv, hdfv1⟩ := encodeV_state vx stB vp1 sv1 hv1 hdfB
    obtain ⟨hlev2, -⟩ := encodeVSeconds_state rest sv1 vps2 sv2 hvr hdfv1
    have havk : ∀ k ∈ c.map Prod.fst, k < stA.next ∨ sk1.next ≤ k := by
      intro k hk
      rcases (hav k hk).1 with h | h
      · exact Or.inl h
      · exact Or.inr (by omega)
    obtain ⟨d1, hdec1, hb1⟩ := rtV env kx stA kp1 sk1 c hk1 hwfk hdfA havk
    have havv : ∀ k ∈ (c ++ d1).map Prod.fst, k < stB.next ∨ sv1.next ≤ k := by
      intro k hk
      simp only [List.map_append, List.mem_append] at hk
      rcases hk with hk | hk
      · rcases (hav k hk).2 with h | h
        · exact Or.inl h
        · exact Or.inr (by omega)
      · obtain ⟨h1, h2⟩ := hb1 _ hk
        exact Or.inl (by omega)
    obtain ⟨d2, hdec2, hb2⟩ := rtV env vx stB vp1 sv1 (c ++ d1) hv1 hwfv hdfB havv
    have havr : ∀ k ∈ ((c ++ d1) ++ d2).map Prod.fst,
        (k < sk1.next ∨ sk2.next ≤ k) ∧ (k < sv1.next ∨ sv2.next ≤ k) := by
      intro k hk
      simp only [List.map_append, List.mem_append] at hk
      rcases hk with (hk | hk) | hk
      · obtain ⟨hA, hB⟩ := hav k hk
        constructor
        · rcases hA with h | h
          · exact Or.inl (by omega)
          · exact Or.inr h
        · rcases hB with h | h
          · exact Or.inl (by omega)
          · exact Or.inr h
      · obtain ⟨h1, h2⟩ := hb1 _ hk
        exact ⟨Or.inl h2, Or.inl (by omega)⟩
      · obtain ⟨h1, h2⟩ := hb2 _ hk
        exact ⟨Or.inr (by omega), Or.inl h2⟩
    obtain ⟨d3, hdec3, hb3⟩ :=
      rtP env rest sk1 kps2 sk2 sv1 vps2 sv2 ((c ++ d1) ++ d2) hkr hvr hwfr
        hdfk1 hdfv1 (by omega) havr
    refine ⟨d1 ++ d2 ++ d3, ?_, ?_⟩
    · show decodePairs env ((kp1 :: kps2).zip (vp1 :: vps2)) c = _
      have hdec3' := hdec3
      simp only [List.append_assoc, List.zip] at hdec3'
      simp only [List.zip_cons_cons, decodePairs, hdec1, hdec2, hdec3',
        List.append_assoc]
    · intro k hk
      simp only [List.map_append, List.mem_append] at hk
      rcases hk with (hk | hk) | hk
      · obtain ⟨h1, h2⟩ := hb1 _ hk
        exact Or.inl ⟨h1, by omega⟩
      · obtain ⟨h1, h2⟩ := hb2 _ hk
        exact Or.inr ⟨h1, by omega⟩
      · rcases hb3 _ hk with ⟨h1, h2⟩ | ⟨h1, h2⟩
        · exact Or.inl ⟨by omega, h2⟩
        · exact Or.inr ⟨by omega, h2⟩

end

/-- C1: for every value built only from supported/registered types
(primitives, lists, tuples, sets, dicts, importable enums, datetimes,
importable types and functions — the well-formedness predicate),
`decode(encode(v))` returns a value structurally equal to `v`; in
particular `encode([0,1,2,3])` then `decode` yields `[0,1,2,3]`. -/
theorem transcoder_c1 :
    (∀ (env : TrEnv) (v : Value), Value.wf env v = true →
      decodeTop env (encodeTop v) = .ok v) ∧
    decodeTop ⟨[], []⟩ (encodeTop (.vlist [.vint 0, .vint 1, .vint 2, .vint 3])) =
      .ok (.vlist [.vint 0, .vint 1, .vint 2, .vint 3]) := by
  constructor
  · intro env v hwf
    rcases he : encodeV v ⟨0, []⟩ with ⟨p, st'⟩
    have hdf : dataFree (⟨0, []⟩ : EncSt) := fun j _ => rfl
    obtain ⟨d, hdec, -⟩ := rtV env v ⟨0, []⟩ p st' [] he hwf hdf (by simp)
    unfold decodeTop encodeTop
    rw [he]
    dsimp only
    rw [hdec]
  · rfl

theorem transcoder_c1_witness :
    Value.wf ⟨[], []⟩ (.vlist [.vint 0, .vint 1, .vint 2, .vint 3]) = true ∧
    decodeTop ⟨[], []⟩ (encodeTop (.vlist [.vint 0, .vint 1, .vint 2, .vint 3])) =
      .ok (.vlist [.vint 0, .vint 1, .vint 2, .vint 3]) :=
  ⟨rfl, transcoder_c1.1 ⟨[], []⟩ (.vlist [.vint 0, .vint 1, .vint 2, .vint 3]) rfl⟩
